import Mathlib

/-!
Verification of the `creachadair/otp` repository.

The `otp` package (`src/otp.go`) is embedded directly from its source.
Strings are modelled as `List Char` (Go strings at the codepoint level;
the inputs of interest are ASCII, where bytes and codepoints agree) and
byte strings as `List Nat` with values below 256.

The `otpauth` package (URI codec and migration codec) is present in the
repository only through its test files; its definitions here are modelled
from the specification, as marked on each definition.

Layout: all definitions come first, all theorems after them.
-/

deriving instance DecidableEq for Except

/-- Strings modelled as lists of characters. -/
abbrev Str := List Char

/-- View a Lean string literal as a `Str`. -/
def str (s : String) : Str := s.data

namespace Common

/-- Character for a single decimal digit, as Go `strconv` produces it. -/
def digitChar (d : Nat) : Char := Char.ofNat (48 + d)

/-- Fuel-driven core of `decToString`; `fuel` only forces termination and
any amount of it beyond the digit count yields the same text. -/
def decToStringAux : Nat → Nat → Str
  | 0, _ => []
  | fuel + 1, n =>
    if n < 10 then [digitChar n]
    else decToStringAux fuel (n / 10) ++ [digitChar (n % 10)]

/-- Decimal representation of `n`, most significant digit first; the
embedding of Go `strconv.FormatUint(n, 10)`. -/
def decToString (n : Nat) : Str := decToStringAux (n + 1) n

/-- Zero-padded `w`-digit decimal representation of `n` (the least
significant `w` digits of `n`): the specification-side description of a
formatted OTP code. -/
def decPad : Nat → Nat → Str
  | _, 0 => []
  | n, w + 1 => decPad (n / 10) w ++ [digitChar (n % 10)]

/-- Decimal digit test. -/
def isDigitChar (c : Char) : Bool := 48 ≤ c.toNat && c.toNat ≤ 57

/-- Parse a base-10 natural number, the embedding of Go
`strconv.ParseUint(s, 10, 64)` restricted to its success behaviour. -/
def parseDecimal (s : Str) : Option Nat :=
  if s ≠ [] && s.all isDigitChar then
    some (s.foldl (fun acc c => 10 * acc + (c.toNat - 48)) 0)
  else none

/-- ASCII uppercasing of one character. Go `strings.ToUpper` additionally
maps non-ASCII letters through the Unicode tables; those characters can
never appear in legal base32 text nor in the algorithm names compared
against, so the ASCII mapping is the observably relevant part. -/
def toUpperChar (c : Char) : Char :=
  if 97 ≤ c.toNat ∧ c.toNat ≤ 122 then Char.ofNat (c.toNat - 32) else c

/-- ASCII lowercasing of one character (see `toUpperChar`). -/
def toLowerChar (c : Char) : Char :=
  if 65 ≤ c.toNat ∧ c.toNat ≤ 90 then Char.ofNat (c.toNat + 32) else c

def toUpperStr (s : Str) : Str := s.map toUpperChar

def toLowerStr (s : Str) : Str := s.map toLowerChar

end Common

namespace Otp

open Common

/-- Whitespace as recognized by Go `unicode.IsSpace` (the Unicode
White_Space property). -/
def isGoSpace (c : Char) : Bool :=
  let n := c.toNat
  (9 ≤ n && n ≤ 13) || n = 32 || n = 133 || n = 160 || n = 5760 ||
  (8192 ≤ n && n ≤ 8202) || n = 8232 || n = 8233 || n = 8239 || n = 8287 || n = 12288

/-- Embedding of Go `strings.Fields`: split around runs of whitespace.
`acc` holds the (reversed) word currently being read. -/
def fieldsAux : List Char → List Char → List (List Char)
  | [], acc => if acc.isEmpty then [] else [acc.reverse]
  | c :: cs, acc =>
    if isGoSpace c then
      if acc.isEmpty then fieldsAux cs [] else acc.reverse :: fieldsAux cs []
    else fieldsAux cs (c :: acc)

def fields (s : Str) : List Str := fieldsAux s []

/-- A base32 decoding failure; Go's `base32.CorruptInputError` collapsed
to its kind (the byte offset it carries plays no role here). -/
inductive Base32Err where
  | corrupt
  deriving DecidableEq, Repr

/-- Value of one standard-alphabet base32 character. -/
def b32Val (c : Char) : Option Nat :=
  if 65 ≤ c.toNat ∧ c.toNat ≤ 90 then some (c.toNat - 65)
  else if 50 ≤ c.toNat ∧ c.toNat ≤ 55 then some (c.toNat - 24)
  else none

/-- Pack up to eight 5-bit groups into bytes, as in the `switch dlen`
of Go `encoding/base32`; `q.length` plays the role of `dlen`. -/
def b32Quantum (q : List Nat) : List Nat :=
  let b := fun i => q.getD i 0
  let d0 := ((b 0 <<< 3) % 256) ||| (b 1 >>> 2)
  let d1 := ((b 1 <<< 6) % 256) ||| ((b 2 <<< 1) % 256) ||| (b 3 >>> 4)
  let d2 := ((b 3 <<< 4) % 256) ||| (b 4 >>> 1)
  let d3 := ((b 4 <<< 7) % 256) ||| ((b 5 <<< 2) % 256) ||| (b 6 >>> 3)
  let d4 := ((b 6 <<< 5) % 256) ||| b 7
  match q.length with
  | 2 => [d0]
  | 4 => [d0, d1]
  | 5 => [d0, d1, d2]
  | 7 => [d0, d1, d2, d3]
  | 8 => [d0, d1, d2, d3, d4]
  | _ => []

/-- Decode one final (padded) base32 quantum: `chunk` is the 8-character
block, `p` the number of data characters before the first `=`. -/
def b32FinalChunk (chunk : List Char) (p : Nat) : Except Base32Err (List Nat) :=
  if p = 2 ∨ p = 4 ∨ p = 5 ∨ p = 7 then
    if (chunk.drop p).all (· = '=') then
      match (chunk.take p).mapM b32Val with
      | some q => .ok (b32Quantum q)
      | none => .error .corrupt
    else .error .corrupt
  else .error .corrupt

/-- Embedding of Go `base32.StdEncoding.DecodeString`: data is consumed in
8-character quanta; a quantum containing padding must close the input.
(The library's acceptance of up to seven trailing junk characters after a
padded final quantum is a corner not modelled.) -/
def base32StdDecode : List Char → Except Base32Err (List Nat)
  | [] => .ok []
  | c0 :: c1 :: c2 :: c3 :: c4 :: c5 :: c6 :: c7 :: rest =>
    let chunk := [c0, c1, c2, c3, c4, c5, c6, c7]
    match chunk.findIdx? (· = '=') with
    | none =>
      match chunk.mapM b32Val with
      | some q =>
        match base32StdDecode rest with
        | .ok tail => .ok (b32Quantum q ++ tail)
        | .error e => .error e
      | none => .error .corrupt
    | some p =>
      if rest.isEmpty then b32FinalChunk chunk p else .error .corrupt
  | _ => .error .corrupt

/-- Holds the settings that control generation of authenticator codes,
from `src/otp.go`. `Key` is the shared secret as raw bytes (a Go string).
The `Hash` constructor together with `crypto/hmac` is external library
code; the whole of Go `Config.hmac` (HMAC of the big-endian counter under
`Key` with the configured hash) is abstracted as the `hmac` field. -/
structure Config where
  Key : List Nat := []
  hmac : Nat → List Nat := fun _ => []
  Digits : Int := 0

/-- Embedding of Go `Config.ParseKey` from `src/otp.go`: join the fields
of `s` (dropping whitespace), uppercase, pad with `=` to a multiple of
eight, then standard-base32 decode; on success the decoded bytes replace
`Key`, on failure the error is returned and the config is untouched. -/
def Config.ParseKey (c : Config) (s : Str) : Except Base32Err Config :=
  let clean := toUpperStr (fields s).flatten
  let clean := if clean.length % 8 = 0 then clean
               else clean ++ List.replicate (8 - clean.length % 8) '='
  match base32StdDecode clean with
  | .error e => .error e
  | .ok dec => .ok { c with Key := dec }

/-- Embedding of Go `Config.digits`: effective digit count. -/
def Config.digits (c : Config) : Nat :=
  if c.Digits ≤ 0 then 6 else c.Digits.toNat

/-- Embedding of `truncate` from `src/otp.go` (RFC 4226 dynamic
truncation). Out-of-range indexing (impossible for digests of length at
least 20) reads 0 rather than panicking. -/
def truncate (digest : List Nat) : Nat :=
  let offset := (digest.getD (digest.length - 1) 0) &&& 15
  ((digest.getD offset 0 &&& 127) <<< 24) |||
    ((digest.getD (offset + 1) 0) <<< 16) |||
    ((digest.getD (offset + 2) 0) <<< 8) |||
    (digest.getD (offset + 3) 0)

/-- Embedding of `format` from `src/otp.go`: decimal representation of
`code`, left-padded with zeros to `width`, truncated to its last `width`
characters. The Go code slices the 16-character constant `padding`;
slicing it out of range panics, modelled as `none`. -/
def format (code width : Nat) : Option Str :=
  let s := decToString code
  if s.length < width then
    if width - s.length ≤ 16 then
      some (List.replicate (width - s.length) '0' ++ s)
    else none
  else some (s.drop (s.length - width))

/-- Embedding of Go `Config.HOTP`. -/
def Config.HOTP (c : Config) (counter : Nat) : Option Str :=
  format (truncate (c.hmac counter)) c.digits

/-- Dropping all whitespace of `s`, uppercasing, and padding with `=` to a
multiple of eight characters: the cleaned key text of `Config.ParseKey`,
described as the specification reads it. -/
def cleanedKey (s : Str) : Str :=
  let clean := toUpperStr (s.filter (fun c => ¬ isGoSpace c))
  if clean.length % 8 = 0 then clean
  else clean ++ List.replicate (8 - clean.length % 8) '='

end Otp

namespace OtpAuth

open Common

/-- The error kinds of the `otpauth` package, from the specification's
error-handling design (the offending-substring payloads they carry play no
role in the verified properties). -/
inductive Err where
  | InvalidScheme
  | InvalidTypeOrLabel
  | InvalidURLEscape
  | EmptyAccountName
  | EmptyIssuer
  | InvalidParameter
  | InvalidIntegerValue
  | InvalidValue
  | MalformedWireFormat
  | UnknownType
  | UnsupportedAlgorithm
  | UnsupportedDigitCount
  | IllegalBase32Data
  deriving DecidableEq, Repr

/-- Modelled from the spec: the Entity produced and consumed by the
`otpauth` codecs (`otpauth.URL`), whose source file is absent from the
repository snapshot. Field names and zero defaults follow the
specification's data model. -/
structure URL where
  «Type» : Str := []
  Issuer : Str := []
  Account : Str := []
  RawSecret : Str := []
  Algorithm : Str := []
  Digits : Nat := 0
  Period : Nat := 0
  Counter : Nat := 0
  deriving DecidableEq, Repr

/-- Hexadecimal digit test (both cases). -/
def isHexChar (c : Char) : Bool :=
  (48 ≤ c.toNat && c.toNat ≤ 57) || (97 ≤ c.toNat && c.toNat ≤ 102) ||
    (65 ≤ c.toNat && c.toNat ≤ 70)

/-- Value of a hexadecimal digit. -/
def hexVal (c : Char) : Nat :=
  if 48 ≤ c.toNat ∧ c.toNat ≤ 57 then c.toNat - 48
  else if 97 ≤ c.toNat ∧ c.toNat ≤ 102 then c.toNat - 87
  else if 65 ≤ c.toNat ∧ c.toNat ≤ 70 then c.toNat - 55
  else 0

/-- Uppercase hexadecimal digit for a value below 16. -/
def hexChar (n : Nat) : Char :=
  if n < 10 then Char.ofNat (48 + n) else Char.ofNat (55 + n)

/-- Modelled from the spec: percent-decoding of label and query text; a
`%` not followed by two hexadecimal digits is a malformed escape. -/
def pctDecode : Str → Except Err Str
  | [] => .ok []
  | '%' :: rest =>
    match rest with
    | h1 :: h2 :: rest' =>
      if isHexChar h1 ∧ isHexChar h2 then
        match pctDecode rest' with
        | .ok t => .ok (Char.ofNat (16 * hexVal h1 + hexVal h2) :: t)
        | .error e => .error e
      else .error .InvalidURLEscape
    | _ => .error .InvalidURLEscape
  | c :: rest =>
    match pctDecode rest with
    | .ok t => .ok (c :: t)
    | .error e => .error e

/-- Characters emitted literally by the percent-encoder: unreserved URI
characters plus `@`, which the reference output keeps literal. Non-ASCII
codepoints are passed through (UTF-8 byte-level escaping is outside this
model; all reference vectors are ASCII). -/
def isPlainChar (c : Char) : Bool :=
  let n := c.toNat
  (48 ≤ n && n ≤ 57) || (65 ≤ n && n ≤ 90) || (97 ≤ n && n ≤ 122) ||
    n = 45 || n = 46 || n = 95 || n = 126 || n = 64 || 128 ≤ n

/-- Percent-encode one character. -/
def encChar (c : Char) : Str :=
  if isPlainChar c then [c]
  else ['%', hexChar (c.toNat / 16), hexChar (c.toNat % 16)]

/-- Modelled from the spec: percent-encoding with standard URI rules
(space becomes `%20`, `@` stays literal). -/
def pctEncode (s : Str) : Str := s.flatMap encChar

/-- Split at the first occurrence of `x`, which is dropped; `none` when
`x` does not occur. -/
def splitFirst (x : Char) : Str → Option (Str × Str)
  | [] => none
  | c :: cs =>
    if c = x then some ([], cs)
    else match splitFirst x cs with
      | none => none
      | some (a, b) => some (c :: a, b)

/-- Split on every `&`, like Go `strings.Split(s, "&")`. -/
def splitAmp : Str → List Str
  | [] => [[]]
  | c :: cs =>
    if c = '&' then [] :: splitAmp cs
    else match splitAmp cs with
      | [] => [[c]]
      | p :: ps => (c :: p) :: ps

/-- Spaces discarded after the label's colon separator. -/
def dropLeadingSpaces (s : Str) : Str := s.dropWhile (· = ' ')

/-- Spaces discarded before the label's colon separator (the reference
behaviour trims the issuer segment, cf. the ExtraSpace test vector). -/
def dropTrailingSpaces (s : Str) : Str := (s.reverse.dropWhile (· = ' ')).reverse

/-- Modelled from the spec: label handling of the absent URI parser
(`otpauth.URL` parsing): percent-decode, split at the first colon into
issuer and account, discard the space runs around the colon, and reject
an empty account or an empty issuer. Result is `(issuer, account)`. -/
def parseLabel (raw : Str) : Except Err (Str × Str) :=
  match pctDecode raw with
  | .error e => .error e
  | .ok dec =>
    match splitFirst ':' dec with
    | none => .ok ([], dec)
    | some (pre, suf) =>
      let acc := dropLeadingSpaces suf
      if acc = [] then .error .EmptyAccountName
      else
        let iss := dropTrailingSpaces pre
        if iss = [] then .error .EmptyIssuer
        else .ok (iss, acc)

/-- The recognized query keys. -/
def knownKeys : List Str :=
  [str "algorithm", str "counter", str "digits", str "issuer", str "period",
   str "secret"]

/-- Split one query piece at its first `=`; a piece without `=` has an
empty value. -/
def splitKV (piece : Str) : Str × Str :=
  match splitFirst '=' piece with
  | none => (piece, [])
  | some kv => kv

/-- Modelled from the spec: apply one recognized query parameter to the
entity being built. `secret` is stored verbatim; `issuer` and `algorithm`
are percent-decoded (failure is `InvalidValue`); the three numeric keys
parse as base-10 integers (failure is `InvalidIntegerValue`). -/
def applyParam (u : URL) : Str × Str → Except Err URL
  | (k, v) =>
    if k = str "secret" then .ok { u with RawSecret := v }
    else if k = str "issuer" then
      match pctDecode v with
      | .error _ => .error .InvalidValue
      | .ok d => .ok { u with Issuer := d }
    else if k = str "algorithm" then
      match pctDecode v with
      | .error _ => .error .InvalidValue
      | .ok d => .ok { u with Algorithm := d }
    else if k = str "digits" then
      match parseDecimal v with
      | none => .error .InvalidIntegerValue
      | some n => .ok { u with Digits := n }
    else if k = str "period" then
      match parseDecimal v with
      | none => .error .InvalidIntegerValue
      | some n => .ok { u with Period := n }
    else if k = str "counter" then
      match parseDecimal v with
      | none => .error .InvalidIntegerValue
      | some n => .ok { u with Counter := n }
    else .error .InvalidParameter

/-- Modelled from the spec: process a query string; any key outside the
recognized set fails `InvalidParameter` independent of the validity of the
other parameters' values, then the recognized parameters are applied in
order. -/
def parseQuery (u : URL) (q : Str) : Except Err URL :=
  let kvs := (splitAmp q).map splitKV
  if kvs.all (fun kv => decide (kv.1 ∈ knownKeys)) then
    kvs.foldlM applyParam u
  else .error .InvalidParameter

/-- Modelled from the spec: zero-value defaulting applied after parsing —
Algorithm SHA1, Digits 6, Period 30 when absent or zero. -/
def defaulted (u : URL) : URL :=
  { u with
    Algorithm := if u.Algorithm = [] then str "SHA1" else u.Algorithm
    Digits := if u.Digits = 0 then 6 else u.Digits
    Period := if u.Period = 0 then 30 else u.Period }

/-- Does the text begin with a recognizable URI scheme, i.e. `://` after a
run of characters containing no `:`, `/` or `?`. -/
def schemeLike (s : Str) : Bool :=
  match s.dropWhile (fun c => c ≠ ':' ∧ c ≠ '/' ∧ c ≠ '?') with
  | ':' :: '/' :: '/' :: _ => true
  | _ => false

/-- Modelled from the spec: the scheme-free grammar `type/label?query`
of the URI parser, with the query optional. -/
def parseCore (t : Str) : Except Err URL :=
  let (path, query) := match splitFirst '?' t with
    | none => (t, none)
    | some (p, q) => (p, some q)
  match splitFirst '/' path with
  | none => .error .InvalidTypeOrLabel
  | some (ty, lbl) =>
    if ty = [] ∨ lbl = [] then .error .InvalidTypeOrLabel
    else
      match parseLabel lbl with
      | .error e => .error e
      | .ok (iss, acc) =>
        let u0 : URL := { «Type» := ty, Issuer := iss, Account := acc }
        match (match query with
               | none => .ok u0
               | some q => parseQuery u0 q : Except Err URL) with
        | .error e => .error e
        | .ok u => .ok (defaulted u)

/-- Modelled from the spec: the URI parser of the absent `otpauth` source
(`otpauth.ParseURL`). The `otpauth:` scheme and a leading `//` are
optional but any other recognizable scheme fails `InvalidScheme`; the
remainder is `type/label?query` with the query optional. -/
def ParseURL (s : Str) : Except Err URL :=
  let t := if (str "otpauth:").isPrefixOf s then s.drop 8 else s
  if ¬ (str "otpauth:").isPrefixOf s ∧ schemeLike s then .error .InvalidScheme
  else parseCore (if (str "//").isPrefixOf t then t.drop 2 else t)

/-- Case-insensitive test for type hotp. -/
def isHOTP (u : URL) : Bool := toLowerStr u.«Type» = str "hotp"

/-- Modelled from the spec: the query parameters the URI encoder emits, in
strict alphabetical key order, each present only under its condition;
`algorithm` is uppercased (cf. the sha256 encoding vector), `secret` is
emitted verbatim. -/
def encParams (u : URL) : List (Str × Str) :=
  (if u.Algorithm ≠ [] then [(str "algorithm", pctEncode (toUpperStr u.Algorithm))]
   else []) ++
  (if isHOTP u then [(str "counter", decToString u.Counter)] else []) ++
  (if u.Digits ≠ 0 then [(str "digits", decToString u.Digits)] else []) ++
  (if u.Issuer ≠ [] then [(str "issuer", pctEncode u.Issuer)] else []) ++
  (if u.Period ≠ 0 then [(str "period", decToString u.Period)] else []) ++
  (if u.RawSecret ≠ [] then [(str "secret", u.RawSecret)] else [])

/-- The encoded label: `issuer:account`, both percent-encoded, or just the
account when the issuer is empty. -/
def encLabel (u : URL) : Str :=
  if u.Issuer ≠ [] then pctEncode u.Issuer ++ ':' :: pctEncode u.Account
  else pctEncode u.Account

/-- One rendered query piece. -/
def renderParam (kv : Str × Str) : Str := kv.1 ++ '=' :: kv.2

/-- Modelled from the spec: the canonical textual form of an entity
(`otpauth.URL.String`): scheme, type, label, then the query when any
parameter is present. -/
def URL.toText (u : URL) : Str :=
  str "otpauth://" ++ u.«Type» ++ '/' :: encLabel u ++
    (match encParams u with
     | [] => []
     | ps => '?' :: (List.intercalate ['&'] (ps.map renderParam)))

/-- The entity actually reconstructed by parsing the encoder's output:
absent or zero Algorithm, Digits and Period are defaulted to SHA1, 6 and
30, a present Algorithm comes back uppercased, and the Counter survives
only for (case-insensitively) hotp entities, since the encoder emits the
`counter` parameter for no other type. -/
def roundTripNormal (u : URL) : URL :=
  { u with
    Algorithm := if u.Algorithm = [] then str "SHA1" else toUpperStr u.Algorithm
    Digits := if u.Digits = 0 then 6 else u.Digits
    Period := if u.Period = 0 then 30 else u.Period
    Counter := if isHOTP u then u.Counter else 0 }

/-- Chunked core of the flexible base32 decoder: full 8-character quanta
followed by an optional final partial quantum of legal length. -/
def b32Chunks : List Char → Option (List Nat)
  | [] => some []
  | c0 :: c1 :: c2 :: c3 :: c4 :: c5 :: c6 :: c7 :: rest =>
    match ([c0, c1, c2, c3, c4, c5, c6, c7]).mapM Otp.b32Val, b32Chunks rest with
    | some q, some tail => some (Otp.b32Quantum q ++ tail)
    | _, _ => none
  | chunk =>
    if chunk.length = 2 ∨ chunk.length = 4 ∨ chunk.length = 5 ∨ chunk.length = 7 then
      match chunk.mapM Otp.b32Val with
      | some q => some (Otp.b32Quantum q)
      | none => none
    else none

/-- Modelled from the spec: the `DecodeBase32` collaborator of the absent
`otpauth` source — base32 text, case-insensitive, padding optional. -/
def decodeBase32 (s : Str) : Option (List Nat) :=
  b32Chunks (toUpperStr ((s.reverse.dropWhile (· = '=')).reverse))

/-- Standard base32 alphabet character for a 5-bit group. -/
def b32Char (n : Nat) : Char :=
  if n < 26 then Char.ofNat (65 + n) else Char.ofNat (24 + n)

/-- Modelled from the spec: the `EncodeBase32` collaborator — unpadded,
uppercase canonical base32 of raw bytes. -/
def b32enc : List Nat → Str
  | [] => []
  | [a] => [b32Char (a >>> 3), b32Char ((a &&& 7) <<< 2)]
  | [a, b] =>
    [b32Char (a >>> 3), b32Char (((a &&& 7) <<< 2) ||| (b >>> 6)),
     b32Char ((b >>> 1) &&& 31), b32Char ((b &&& 1) <<< 4)]
  | [a, b, c] =>
    [b32Char (a >>> 3), b32Char (((a &&& 7) <<< 2) ||| (b >>> 6)),
     b32Char ((b >>> 1) &&& 31), b32Char (((b &&& 1) <<< 4) ||| (c >>> 4)),
     b32Char ((c &&& 15) <<< 1)]
  | [a, b, c, d] =>
    [b32Char (a >>> 3), b32Char (((a &&& 7) <<< 2) ||| (b >>> 6)),
     b32Char ((b >>> 1) &&& 31), b32Char (((b &&& 1) <<< 4) ||| (c >>> 4)),
     b32Char (((c &&& 15) <<< 1) ||| (d >>> 7)), b32Char ((d >>> 2) &&& 31),
     b32Char ((d &&& 3) <<< 3)]
  | a :: b :: c :: d :: e :: rest =>
    b32Char (a >>> 3) :: b32Char (((a &&& 7) <<< 2) ||| (b >>> 6)) ::
    b32Char ((b >>> 1) &&& 31) :: b32Char (((b &&& 1) <<< 4) ||| (c >>> 4)) ::
    b32Char (((c &&& 15) <<< 1) ||| (d >>> 7)) :: b32Char ((d >>> 2) &&& 31) ::
    b32Char (((d &&& 3) <<< 3) ||| (e >>> 5)) :: b32Char (e &&& 31) :: b32enc rest

/-- Fuel-driven core of the varint writer (little-endian base-128 with
continuation bits, per the wire-format section of the spec). -/
def wVarintAux : Nat → Nat → List Nat
  | 0, _ => []
  | fuel + 1, n =>
    if n < 128 then [n] else (n % 128 + 128) :: wVarintAux fuel (n / 128)

def wVarint (n : Nat) : List Nat := wVarintAux (n + 1) n

/-- Modelled from the spec: the varint reader; rejects truncated input and
encodings longer than ten bytes. -/
def rVarintAux : Nat → List Nat → Option (Nat × List Nat)
  | 0, _ => none
  | _ + 1, [] => none
  | fuel + 1, b :: rest =>
    if b < 128 then some (b, rest)
    else
      match rVarintAux fuel rest with
      | some (v, r) => some (b % 128 + 128 * v, r)
      | none => none

def rVarint (l : List Nat) : Option (Nat × List Nat) := rVarintAux 10 l

def wTag (f wt : Nat) : List Nat := wVarint (8 * f + wt)

/-- A length-delimited field: tag, varint length, payload. -/
def wBytesField (f : Nat) (bs : List Nat) : List Nat :=
  wTag f 2 ++ wVarint bs.length ++ bs

/-- A varint field: tag then value. -/
def wVarField (f n : Nat) : List Nat := wTag f 0 ++ wVarint n

/-- One wire field of an OTP-parameter record. -/
inductive WField where
  | bytesF (f : Nat) (bs : List Nat)
  | varF (f : Nat) (n : Nat)
  deriving DecidableEq, Repr

def writeField : WField → List Nat
  | .bytesF f bs => wBytesField f bs
  | .varF f n => wVarField f n

/-- Decoder state for one OTP-parameter record: the seven numbered fields
of the migration schema, zero-valued when absent. -/
structure RawRec where
  secret : List Nat := []
  name : List Nat := []
  issuer : List Nat := []
  alg : Nat := 0
  dig : Nat := 0
  typ : Nat := 0
  counter : Nat := 0
  deriving DecidableEq, Repr

/-- Modelled from the spec: the field loop of the record decoder — read a
tag, consume the payload by wire type, assign known fields, skip unknown
field numbers, reject unsupported wire types and truncated payloads. -/
def decFields : Nat → RawRec → List Nat → Except Err RawRec
  | 0, st, l => if l.isEmpty then .ok st else .error .MalformedWireFormat
  | _ + 1, st, [] => .ok st
  | fuel + 1, st, b :: bs =>
    match rVarint (b :: bs) with
    | none => .error .MalformedWireFormat
    | some (tag, rest) =>
      let f := tag / 8
      let wt := tag % 8
      if wt = 0 then
        match rVarint rest with
        | none => .error .MalformedWireFormat
        | some (n, rest') =>
          decFields fuel
            (if f = 4 then { st with alg := n }
             else if f = 5 then { st with dig := n }
             else if f = 6 then { st with typ := n }
             else if f = 7 then { st with counter := n }
             else st) rest'
      else if wt = 2 then
        match rVarint rest with
        | none => .error .MalformedWireFormat
        | some (len, rest') =>
          if len ≤ rest'.length then
            decFields fuel
              (if f = 1 then { st with secret := rest'.take len }
               else if f = 2 then { st with name := rest'.take len }
               else if f = 3 then { st with issuer := rest'.take len }
               else st) (rest'.drop len)
          else .error .MalformedWireFormat
      else .error .MalformedWireFormat

def decodeRecord (bytes : List Nat) : Except Err RawRec :=
  decFields (bytes.length + 1) {} bytes

/-- Modelled from the spec: the envelope loop — every length-delimited
field 1 is a record, other fields (version, batch bookkeeping) are read
and discarded by wire type. -/
def decRecords : Nat → List Nat → Except Err (List RawRec)
  | 0, l => if l.isEmpty then .ok [] else .error .MalformedWireFormat
  | _ + 1, [] => .ok []
  | fuel + 1, b :: bs =>
    match rVarint (b :: bs) with
    | none => .error .MalformedWireFormat
    | some (tag, rest) =>
      let f := tag / 8
      let wt := tag % 8
      if wt = 2 then
        match rVarint rest with
        | none => .error .MalformedWireFormat
        | some (len, rest') =>
          if len ≤ rest'.length then
            if f = 1 then
              match decodeRecord (rest'.take len), decRecords fuel (rest'.drop len) with
              | .ok r, .ok rs => .ok (r :: rs)
              | .error e, _ => .error e
              | _, .error e => .error e
            else decRecords fuel (rest'.drop len)
          else .error .MalformedWireFormat
      else if wt = 0 then
        match rVarint rest with
        | none => .error .MalformedWireFormat
        | some (_, rest') => decRecords fuel rest'
      else .error .MalformedWireFormat

/-- Enum-to-name resolution of the algorithm field (0 defaults to SHA1). -/
def algName : Nat → Str
  | 2 => str "SHA256"
  | 3 => str "SHA512"
  | 4 => str "MD5"
  | _ => str "SHA1"

/-- Enum-to-name resolution of the type field (0 maps to empty). -/
def typName : Nat → Str
  | 1 => str "hotp"
  | 2 => str "totp"
  | _ => []

/-- Enum-to-count resolution of the digits field (0 defaults to 6). -/
def digCount : Nat → Nat
  | 2 => 8
  | _ => 6

def bytesToStr (bs : List Nat) : Str := bs.map Char.ofNat

def strToBytes (s : Str) : List Nat := s.map Char.toNat

/-- Modelled from the spec: map one decoded record onto an Entity,
re-encoding the secret bytes as unpadded uppercase base32 and applying
the Period default of 30 (the wire schema carries no period). -/
def rawToURL (r : RawRec) : URL :=
  { «Type» := typName r.typ, Issuer := bytesToStr r.issuer,
    Account := bytesToStr r.name, RawSecret := b32enc r.secret,
    Algorithm := algName r.alg, Digits := digCount r.dig,
    Period := 30, Counter := r.counter }

def decodeMigration (bytes : List Nat) : Except Err (List URL) :=
  match decRecords (bytes.length + 1) bytes with
  | .error e => .error e
  | .ok rs => .ok (rs.map rawToURL)

/-- Wire enum of the type name: empty is unspecified, otherwise hotp or
totp case-insensitively, else `UnknownType`. -/
def typeEnum (s : Str) : Option Nat :=
  if s = [] then some 0
  else if toLowerStr s = str "hotp" then some 1
  else if toLowerStr s = str "totp" then some 2
  else none

/-- Wire enum of the algorithm name: empty is unspecified, otherwise one
of the four known names case-insensitively, else `UnsupportedAlgorithm`. -/
def algEnum (s : Str) : Option Nat :=
  if s = [] then some 0
  else if toUpperStr s = str "SHA1" then some 1
  else if toUpperStr s = str "SHA256" then some 2
  else if toUpperStr s = str "SHA512" then some 3
  else if toUpperStr s = str "MD5" then some 4
  else none

/-- Wire enum of the digit count: only 0, 6 and 8 are representable. -/
def digitsEnum (n : Nat) : Option Nat :=
  if n = 0 then some 0 else if n = 6 then some 1 else if n = 8 then some 2 else none

/-- The wire fields of one record, in field-number order, zero-valued
fields omitted. -/
def recFields (e : URL) (tE aE dE : Nat) (secret : List Nat) : List WField :=
  (if secret ≠ [] then [WField.bytesF 1 secret] else []) ++
  (if e.Account ≠ [] then [WField.bytesF 2 (strToBytes e.Account)] else []) ++
  (if e.Issuer ≠ [] then [WField.bytesF 3 (strToBytes e.Issuer)] else []) ++
  (if aE ≠ 0 then [WField.varF 4 aE] else []) ++
  (if dE ≠ 0 then [WField.varF 5 dE] else []) ++
  (if tE ≠ 0 then [WField.varF 6 tE] else []) ++
  (if e.Counter ≠ 0 then [WField.varF 7 e.Counter] else [])

/-- Modelled from the spec: serialize one Entity as a record, validating
Type, Algorithm, Digits and the base32 secret in that order. -/
def encodeRecord (e : URL) : Except Err (List Nat) :=
  match typeEnum e.«Type» with
  | none => .error .UnknownType
  | some tE =>
    match algEnum e.Algorithm with
    | none => .error .UnsupportedAlgorithm
    | some aE =>
      match digitsEnum e.Digits with
      | none => .error .UnsupportedDigitCount
      | some dE =>
        match (if e.RawSecret = [] then some [] else decodeBase32 e.RawSecret) with
        | none => .error .IllegalBase32Data
        | some secret =>
          .ok ((recFields e tE aE dE secret).map writeField).flatten

/-- Modelled from the spec: the migration payload — each record as a
length-delimited field 1 submessage, concatenated in input order. -/
def encodeMigration : List URL → Except Err (List Nat)
  | [] => .ok []
  | e :: es =>
    match encodeRecord e, encodeMigration es with
    | .ok rec, .ok rest => .ok (wBytesField 1 rec ++ rest)
    | .error err, _ => .error err
    | _, .error err => .error err

/-- Standard base64 alphabet character for a 6-bit group. -/
def b64Char (n : Nat) : Char :=
  if n < 26 then Char.ofNat (65 + n)
  else if n < 52 then Char.ofNat (71 + n)
  else if n < 62 then Char.ofNat (n - 4)
  else if n = 62 then Char.ofNat 43
  else Char.ofNat 47

/-- Value of a standard base64 character. -/
def b64Val (c : Char) : Option Nat :=
  if 65 ≤ c.toNat ∧ c.toNat ≤ 90 then some (c.toNat - 65)
  else if 97 ≤ c.toNat ∧ c.toNat ≤ 122 then some (c.toNat - 71)
  else if 48 ≤ c.toNat ∧ c.toNat ≤ 57 then some (c.toNat + 4)
  else if c.toNat = 43 then some 62
  else if c.toNat = 47 then some 63
  else none

/-- Modelled from the spec: base64 encoding (standard alphabet, unpadded)
of the migration payload. -/
def b64enc : List Nat → Str
  | [] => []
  | [a] => [b64Char (a / 4), b64Char (a % 4 * 16)]
  | [a, b] =>
    [b64Char (a / 4), b64Char (a % 4 * 16 + b / 16), b64Char (b % 16 * 4)]
  | a :: b :: c :: rest =>
    b64Char (a / 4) :: b64Char (a % 4 * 16 + b / 16) ::
    b64Char (b % 16 * 4 + c / 64) :: b64Char (c % 64) :: b64enc rest

/-- Modelled from the spec: base64 decoding (standard alphabet; padding is
stripped before this runs, so final groups of two or three characters are
accepted). -/
def b64dec : Str → Option (List Nat)
  | [] => some []
  | [c0, c1] =>
    match b64Val c0, b64Val c1 with
    | some a, some b => some [a * 4 + b / 16]
    | _, _ => none
  | [c0, c1, c2] =>
    match b64Val c0, b64Val c1, b64Val c2 with
    | some a, some b, some c => some [a * 4 + b / 16, b % 16 * 16 + c / 4]
    | _, _, _ => none
  | c0 :: c1 :: c2 :: c3 :: rest =>
    match b64Val c0, b64Val c1, b64Val c2, b64Val c3, b64dec rest with
    | some a, some b, some c, some d, some tail =>
      some ((a * 4 + b / 16) :: (b % 16 * 16 + c / 4) :: (c % 4 * 64 + d) :: tail)
    | _, _, _, _, _ => none
  | _ => none

def stripB64Pad (s : Str) : Str := (s.reverse.dropWhile (· = '=')).reverse

/-- Modelled from the spec: render an Entity sequence as an
`otpauth-migration://offline?data=...` URL (base64 then percent-encoded). -/
def MigrationURL (es : List URL) : Except Err Str :=
  match encodeMigration es with
  | .error e => .error e
  | .ok bytes =>
    .ok (str "otpauth-migration://offline?data=" ++ pctEncode (b64enc bytes))

/-- Modelled from the spec: parse a migration URL — fixed scheme and host,
a single `data` parameter, percent-decoded, base64-decoded (padding
tolerated or absent), then the payload decoder. -/
def ParseMigrationURL (s : Str) : Except Err (List URL) :=
  if (str "otpauth-migration://offline?").isPrefixOf s then
    match splitAmp (s.drop 28) with
    | [piece] =>
      match splitFirst '=' piece with
      | some (k, v) =>
        if k = str "data" then
          match pctDecode v with
          | .error e => .error e
          | .ok dec =>
            match b64dec (stripB64Pad dec) with
            | none => .error .MalformedWireFormat
            | some bytes => decodeMigration bytes
        else .error .InvalidParameter
      | none => .error .InvalidParameter
    | _ => .error .InvalidParameter
  else .error .InvalidScheme

/-- The effect of one wire field on the record decoder state, mirroring
the known-field dispatch of `decFields`. -/
def applyField (st : RawRec) : WField → RawRec
  | .bytesF f bs =>
    if f = 1 then { st with secret := bs }
    else if f = 2 then { st with name := bs }
    else if f = 3 then { st with issuer := bs }
    else st
  | .varF f n =>
    if f = 4 then { st with alg := n }
    else if f = 5 then { st with dig := n }
    else if f = 6 then { st with typ := n }
    else if f = 7 then { st with counter := n }
    else st

/-- The first failing validation check of an entity under the migration
encoder (checks ordered Type, Algorithm, Digits, RawSecret per the spec),
or `none` when the entity is encodable. -/
def validateEntity (e : URL) : Option Err :=
  match typeEnum e.«Type» with
  | none => some .UnknownType
  | some _ =>
    match algEnum e.Algorithm with
    | none => some .UnsupportedAlgorithm
    | some _ =>
      match digitsEnum e.Digits with
      | none => some .UnsupportedDigitCount
      | some _ =>
        match (if e.RawSecret = [] then some [] else decodeBase32 e.RawSecret) with
        | none => some .IllegalBase32Data
        | some _ => none

/-- Conditions on one wire field under which writing then reading is
lossless: the tag and any varint payload fit the ten-byte cap, and a
length-delimited payload's length fits its length varint. -/
def fieldOK : WField → Prop
  | .bytesF f bs => 8 * f + 2 < 2 ^ 64 ∧ bs.length < 2 ^ 64
  | .varF f n => 8 * f < 2 ^ 64 ∧ n < 2 ^ 64

/-- Canonical-form conditions on one entity under which the migration
encoder succeeds and decoding restores the entity exactly (Period
excepted): Type and Algorithm in the exact spelling the decoder emits,
Digits representable, the secret the canonical base32 rendering of its
byte decoding, counter and string sizes within wire bounds, and account
and issuer made of byte-sized characters. -/
def EntityOK (e : URL) : Prop :=
  (e.«Type» = [] ∨ e.«Type» = str "hotp" ∨ e.«Type» = str "totp")
  ∧ (e.Algorithm = str "SHA1" ∨ e.Algorithm = str "SHA256"
      ∨ e.Algorithm = str "SHA512" ∨ e.Algorithm = str "MD5")
  ∧ (e.Digits = 6 ∨ e.Digits = 8)
  ∧ (∃ sec, (if e.RawSecret = [] then some [] else decodeBase32 e.RawSecret) = some sec
      ∧ b32enc sec = e.RawSecret ∧ (∀ b ∈ sec, b < 256) ∧ sec.length < 2 ^ 60)
  ∧ e.Counter < 2 ^ 64
  ∧ e.Account.length < 2 ^ 60 ∧ (∀ c ∈ e.Account, c.toNat < 256)
  ∧ e.Issuer.length < 2 ^ 60 ∧ (∀ c ∈ e.Issuer, c.toNat < 256)

end OtpAuth


namespace Common

theorem decToStringAux_eq (fuel n : Nat) (h : n < fuel) :
    decToStringAux fuel n = decToString n := by
  induction fuel using Nat.strong_induction_on generalizing n with
  | _ fuel ih =>
    match fuel, h with
    | f + 1, h =>
      rw [decToString, decToStringAux, decToStringAux]
      by_cases h10 : n < 10
      · rw [if_pos h10, if_pos h10]
      · rw [if_neg h10, if_neg h10]
        have hdiv : n / 10 < n := Nat.div_lt_self (by omega) (by omega)
        rw [ih f (by omega) (n / 10) (by omega),
          ih n (by omega) (n / 10) (by omega)]

/-- Unfolding equation for `decToString`. -/
theorem decToString_eq (n : Nat) :
    decToString n
      = if n < 10 then [digitChar n]
        else decToString (n / 10) ++ [digitChar (n % 10)] := by
  show decToStringAux (n + 1) n = _
  rw [decToStringAux]
  by_cases h10 : n < 10
  · rw [if_pos h10, if_pos h10]
  · rw [if_neg h10, if_neg h10]
    have hdiv : n / 10 < n := Nat.div_lt_self (by omega) (by omega)
    rw [decToStringAux_eq n (n / 10) (by omega)]

theorem decPad_length (n w : Nat) : (decPad n w).length = w := by
  induction w generalizing n with
  | zero => rfl
  | succ w ih => simp [decPad, ih]

theorem decToString_ne_nil (n : Nat) : decToString n ≠ [] := by
  rw [decToString_eq]
  split <;> simp

theorem decToString_length_pos (n : Nat) : 0 < (decToString n).length :=
  List.length_pos.mpr (decToString_ne_nil n)

theorem decToString_lt (n : Nat) : n < 10 ^ (decToString n).length := by
  induction n using Nat.strong_induction_on with
  | _ n ih =>
    rw [decToString_eq]
    split
    · simpa using by omega
    · rename_i h
      have hd := ih (n / 10) (Nat.div_lt_self (by omega) (by omega))
      simp only [List.length_append, List.length_cons, List.length_nil]
      have h10 : 10 ^ ((decToString (n / 10)).length + 1)
          = 10 ^ (decToString (n / 10)).length * 10 := pow_succ 10 _
      rw [h10]
      omega

theorem digitChar_zero : digitChar 0 = '0' := rfl

theorem decPad_zero_left (w : Nat) : decPad 0 w = List.replicate w '0' := by
  induction w with
  | zero => rfl
  | succ w ih => rw [List.replicate_succ']; simp [decPad, ih, digitChar_zero]

theorem decToString_small (n : Nat) (h : n < 10) : decToString n = [digitChar n] := by
  rw [decToString_eq]; simp [h]

theorem decToString_big (n : Nat) (h : ¬ n < 10) :
    decToString n = decToString (n / 10) ++ [digitChar (n % 10)] := by
  conv_lhs => rw [decToString_eq]
  simp [h]

theorem decPad_eq_pad (w n : Nat) (hw : 1 ≤ w) (hn : n < 10 ^ w) :
    decPad n w = List.replicate (w - (decToString n).length) '0' ++ decToString n := by
  induction w generalizing n with
  | zero => omega
  | succ w ih =>
    rcases Nat.eq_zero_or_pos w with hw0 | hwpos
    · subst hw0
      have h10 : n < 10 := by simpa using hn
      rw [decToString_small n h10]
      simp [decPad, Nat.mod_eq_of_lt h10, Nat.div_eq_of_lt h10, decPad]
    · have hdiv : n / 10 < 10 ^ w := by
        rw [Nat.div_lt_iff_lt_mul (by omega)]
        calc n < 10 ^ (w + 1) := hn
        _ = 10 ^ w * 10 := pow_succ 10 w
      by_cases h10 : n < 10
      · have hq : n / 10 = 0 := Nat.div_eq_of_lt h10
        rw [decToString_small n h10]
        show decPad (n / 10) w ++ [digitChar (n % 10)] = _
        rw [hq, decPad_zero_left, Nat.mod_eq_of_lt h10]
        simp only [List.length_cons, List.length_nil]
        have hrepl : List.replicate (w + 1 - 1) '0' = List.replicate w '0' := by
          congr 1
        rw [hrepl]
      · have ihd := ih (n / 10) hwpos hdiv
        rw [decToString_big n h10]
        show decPad (n / 10) w ++ [digitChar (n % 10)] = _
        rw [ihd]
        have hlen : 1 ≤ (decToString (n / 10)).length := decToString_length_pos _
        simp only [List.length_append, List.length_cons, List.length_nil]
        have : w + 1 - ((decToString (n / 10)).length + 1)
            = w - (decToString (n / 10)).length := by omega
        rw [this, List.append_assoc]

theorem decToString_drop (w n : Nat) (hw : 1 ≤ w)
    (hlen : w ≤ (decToString n).length) :
    ((decToString n).drop ((decToString n).length - w)) = decPad (n % 10 ^ w) w := by
  induction w generalizing n with
  | zero => omega
  | succ w ih =>
    have hpad1 : ∀ m : Nat, decPad m 1 = [digitChar (m % 10)] := by
      intro m
      show decPad (m / 10) 0 ++ [digitChar (m % 10)] = _
      rfl
    rcases Nat.eq_zero_or_pos w with hw0 | hwpos
    · subst hw0
      have hmm : n % 10 ^ 1 % 10 = n % 10 := by
        rw [pow_one]
        exact Nat.mod_mod_of_dvd n dvd_rfl
      rw [hpad1, hmm]
      by_cases h : n < 10
      · rw [decToString_small n h]
        simp [Nat.mod_eq_of_lt h]
      · rw [decToString_big n h]
        simp only [List.length_append, List.length_cons, List.length_nil]
        have harith : (decToString (n / 10)).length + 1 - (0 + 1)
            = (decToString (n / 10)).length := by omega
        rw [harith, List.drop_left]
    · have hbig : ¬ n < 10 := by
        intro hlt
        rw [decToString_small n hlt] at hlen
        simp at hlen
        omega
      have hlen' : w ≤ (decToString (n / 10)).length := by
        rw [decToString_big n hbig] at hlen
        simp at hlen
        omega
      rw [decToString_big n hbig]
      simp only [List.length_append, List.length_cons, List.length_nil]
      have harith : (decToString (n / 10)).length + 1 - (w + 1)
          = (decToString (n / 10)).length - w := by omega
      rw [harith]
      rw [List.drop_append_of_le_length (by omega)]
      rw [ih (n / 10) hwpos hlen']
      show decPad (n / 10 % 10 ^ w) w ++ [digitChar (n % 10)]
          = decPad (n % 10 ^ (w + 1)) (w + 1)
      have h1 : n % 10 ^ (w + 1) % 10 = n % 10 :=
        Nat.mod_mod_of_dvd n (dvd_pow_self 10 (by omega))
      have h2 : n % 10 ^ (w + 1) / 10 = n / 10 % 10 ^ w := by
        have hmm := Nat.mod_mul_right_div_self n 10 (10 ^ w)
        have hp : (10 : Nat) ^ (w + 1) = 10 * 10 ^ w := by
          rw [pow_succ]; ring
        rw [hp, hmm]
      show decPad (n / 10 % 10 ^ w) w ++ [digitChar (n % 10)]
          = decPad (n % 10 ^ (w + 1) / 10) w ++ [digitChar (n % 10 ^ (w + 1) % 10)]
      rw [h1, h2]

theorem char_toNat_ofNat (n : Nat) (h : n < 55296) : (Char.ofNat n).toNat = n := by
  have hv : n.isValidChar := Or.inl h
  simp [Char.ofNat, hv]
  rfl

theorem digitChar_toNat (d : Nat) (h : d < 10) : (digitChar d).toNat = 48 + d := by
  rw [digitChar, char_toNat_ofNat]
  omega

theorem decToString_all_digits (n : Nat) : (decToString n).all isDigitChar = true := by
  induction n using Nat.strong_induction_on with
  | _ n ih =>
    rw [decToString_eq]
    split
    · rename_i h
      simp [isDigitChar, digitChar_toNat n h]
      omega
    · rename_i h
      have hd := ih (n / 10) (Nat.div_lt_self (by omega) (by omega))
      simp only [List.all_append, hd, Bool.true_and, List.all_cons, List.all_nil,
        Bool.and_true]
      simp [isDigitChar, digitChar_toNat (n % 10) (Nat.mod_lt n (by omega))]
      omega

theorem decToString_foldl (n a : Nat) :
    (decToString n).foldl (fun acc c => 10 * acc + (c.toNat - 48)) a
      = a * 10 ^ (decToString n).length + n := by
  induction n using Nat.strong_induction_on generalizing a with
  | _ n ih =>
    rw [decToString_eq]
    split
    · rename_i h
      simp [digitChar_toNat n h]
      ring
    · rename_i h
      have hd := ih (n / 10) (Nat.div_lt_self (by omega) (by omega))
      simp only [List.foldl_append, List.foldl_cons, List.foldl_nil, hd]
      rw [digitChar_toNat (n % 10) (Nat.mod_lt n (by omega))]
      simp only [List.length_append, List.length_cons, List.length_nil]
      have : 10 * (a * 10 ^ (decToString (n / 10)).length + n / 10) + (48 + n % 10 - 48)
          = a * (10 ^ ((decToString (n / 10)).length + 1)) + (10 * (n / 10) + n % 10) := by
        rw [pow_succ]
        ring_nf
        omega
      rw [this, Nat.div_add_mod]

/-- Parsing inverts decimal formatting. -/
theorem parseDecimal_decToString (n : Nat) : parseDecimal (decToString n) = some n := by
  rw [parseDecimal, if_pos]
  · rw [decToString_foldl n 0]
    simp
  · simp [decToString_ne_nil n, decToString_all_digits n]

end Common

namespace Otp

open Common

theorem fieldsAux_flatten (s : Str) (acc : List Char) :
    (fieldsAux s acc).flatten = acc.reverse ++ s.filter (fun c => ¬ isGoSpace c) := by
  induction s generalizing acc with
  | nil =>
    by_cases h : acc.isEmpty
    · simp [fieldsAux, h, List.isEmpty_iff.mp h]
    · simp [fieldsAux, h]
  | cons c cs ih =>
    by_cases hsp : isGoSpace c
    · by_cases h : acc.isEmpty
      · simp [fieldsAux, hsp, h, ih, List.isEmpty_iff.mp h]
      · simp [fieldsAux, hsp, h, ih]
    · simp [fieldsAux, hsp, ih]

/-- Joining the fields of `s` with the empty separator removes exactly the
whitespace of `s`. -/
theorem fields_flatten (s : Str) :
    (fields s).flatten = s.filter (fun c => ¬ isGoSpace c) := by
  simpa using fieldsAux_flatten s []

/-- C9. `Config.ParseKey` is atomic: it is exactly base32 decoding of the
whitespace-stripped, uppercased, `=`-padded input — when decoding fails the
error is returned and the configuration (in particular `Key`) is unchanged,
and when it succeeds the result differs from the input configuration only
in `Key`, which holds exactly the decoded bytes. -/
theorem ParseKey_atomic (c : Config) (s : Str) :
    Config.ParseKey c s =
      (match base32StdDecode (cleanedKey s) with
       | .error e => .error e
       | .ok dec => .ok { c with Key := dec }) := by
  rw [Config.ParseKey, cleanedKey]
  rw [fields_flatten]

theorem getD_lt_256 (l : List Nat) (i : Nat) (hi : i < l.length)
    (hb : ∀ b ∈ l, b < 256) : l.getD i 0 < 256 := by
  rw [List.getD_eq_getElem l 0 hi]
  exact hb _ (l.getElem_mem hi)

theorem truncate_lt (digest : List Nat) (hlen : 20 ≤ digest.length)
    (hb : ∀ b ∈ digest, b < 256) : truncate digest < 2 ^ 31 := by
  rw [truncate]
  have hoff : (digest.getD (digest.length - 1) 0) &&& 15 ≤ 15 := Nat.and_le_right
  set off := (digest.getD (digest.length - 1) 0) &&& 15 with hoffdef
  have h1 : (digest.getD off 0 &&& 127) <<< 24 < 2 ^ 31 := by
    have : digest.getD off 0 &&& 127 ≤ 127 := Nat.and_le_right
    rw [Nat.shiftLeft_eq]
    calc (digest.getD off 0 &&& 127) * 2 ^ 24 ≤ 127 * 2 ^ 24 :=
      Nat.mul_le_mul_right _ this
    _ < 2 ^ 31 := by norm_num
  have h2 : (digest.getD (off + 1) 0) <<< 16 < 2 ^ 31 := by
    have hx := getD_lt_256 digest (off + 1) (by omega) hb
    rw [Nat.shiftLeft_eq]
    calc (digest.getD (off + 1) 0) * 2 ^ 16 ≤ 255 * 2 ^ 16 :=
      Nat.mul_le_mul_right _ (by omega)
    _ < 2 ^ 31 := by norm_num
  have h3 : (digest.getD (off + 2) 0) <<< 8 < 2 ^ 31 := by
    have hx := getD_lt_256 digest (off + 2) (by omega) hb
    rw [Nat.shiftLeft_eq]
    calc (digest.getD (off + 2) 0) * 2 ^ 8 ≤ 255 * 2 ^ 8 :=
      Nat.mul_le_mul_right _ (by omega)
    _ < 2 ^ 31 := by norm_num
  have h4 : digest.getD (off + 3) 0 < 2 ^ 31 := by
    have := getD_lt_256 digest (off + 3) (by omega) hb
    omega
  exact Nat.or_lt_two_pow (Nat.or_lt_two_pow (Nat.or_lt_two_pow h1 h2) h3) h4

theorem format_decPad (code d : Nat) (h1 : 1 ≤ d) (h2 : d ≤ 16) :
    format code d = some (decPad (code % 10 ^ d) d) := by
  rw [format]
  by_cases hlt : (decToString code).length < d
  · rw [if_pos hlt, if_pos (by have := decToString_length_pos code; omega)]
    have hcode : code < 10 ^ d := by
      calc code < 10 ^ (decToString code).length := decToString_lt code
      _ ≤ 10 ^ d := Nat.pow_le_pow_right (by omega) (by omega)
    rw [Nat.mod_eq_of_lt hcode, decPad_eq_pad d code h1 hcode]
  · rw [if_neg hlt]
    rw [decToString_drop d code h1 (by omega)]

/-- C10. For any digest of at least 20 bytes, `truncate` yields a value
below `2 ^ 31`; consequently, for any `Config` whose effective digit count
`d` satisfies `1 ≤ d ≤ 16` and whose HMAC yields such a digest, `HOTP`
returns exactly the `d`-character zero-padded decimal representation of
the truncated value modulo `10 ^ d`. -/
theorem truncate_bound_and_HOTP_format :
    (∀ digest : List Nat, 20 ≤ digest.length → (∀ b ∈ digest, b < 256) →
      truncate digest < 2 ^ 31) ∧
    (∀ (c : Config) (counter : Nat),
      20 ≤ (c.hmac counter).length → (∀ b ∈ c.hmac counter, b < 256) →
      1 ≤ c.digits → c.digits ≤ 16 →
      c.HOTP counter
          = some (decPad (truncate (c.hmac counter) % 10 ^ c.digits) c.digits) ∧
        (decPad (truncate (c.hmac counter) % 10 ^ c.digits) c.digits).length
          = c.digits) := by
  refine ⟨truncate_lt, ?_⟩
  intro c counter _hlen _hb hd1 hd2
  exact ⟨format_decPad _ _ hd1 hd2, decPad_length _ _⟩

/-- Witness for C10 at a concrete configuration: the all-zero 20-byte
digest truncates to 0, and six digits format as six zero characters. -/
theorem truncate_bound_and_HOTP_format_witness :
    truncate (List.replicate 20 0) < 2 ^ 31 ∧
      Config.HOTP { hmac := fun _ => List.replicate 20 0, Digits := 6 } 7
        = some (str "000000") := by
  constructor
  · exact truncate_bound_and_HOTP_format.1 (List.replicate 20 0) (by decide)
      (by decide)
  · have h := (truncate_bound_and_HOTP_format.2
      { hmac := fun _ => List.replicate 20 0, Digits := 6 } 7
      (by decide) (by decide) (by decide) (by decide)).1
    rw [h]
    decide

end Otp

namespace OtpAuth

open Common

theorem splitFirst_not_mem {x : Char} {s : Str} (h : x ∉ s) :
    splitFirst x s = none := by
  induction s with
  | nil => rfl
  | cons c cs ih =>
    simp only [List.mem_cons, not_or] at h
    rw [splitFirst, if_neg (by exact fun hc => h.1 hc.symm), ih h.2]

theorem splitFirst_append {x : Char} {a : Str} (b : Str) (h : x ∉ a) :
    splitFirst x (a ++ x :: b) = some (a, b) := by
  induction a with
  | nil => simp [splitFirst]
  | cons c cs ih =>
    simp only [List.mem_cons, not_or] at h
    rw [List.cons_append, splitFirst, if_neg (by exact fun hc => h.1 hc.symm),
      ih h.2]

theorem splitAmp_no_amp {s : Str} (h : '&' ∉ s) : splitAmp s = [s] := by
  induction s with
  | nil => rfl
  | cons c cs ih =>
    simp only [List.mem_cons, not_or] at h
    rw [splitAmp, if_neg (by exact fun hc => h.1 hc.symm), ih h.2]

theorem splitAmp_append {p : Str} (t : Str) (h : '&' ∉ p) :
    splitAmp (p ++ '&' :: t) = p :: splitAmp t := by
  induction p with
  | nil =>
    rw [List.nil_append, splitAmp, if_pos rfl]
  | cons c cs ih =>
    simp only [List.mem_cons, not_or] at h
    rw [List.cons_append, splitAmp, if_neg (by exact fun hc => h.1 hc.symm), ih h.2]

theorem splitAmp_intercalate (l : List Str) (hne : l ≠ [])
    (hfree : ∀ p ∈ l, '&' ∉ p) :
    splitAmp (List.intercalate ['&'] l) = l := by
  induction l with
  | nil => exact absurd rfl hne
  | cons p ps ih =>
    cases ps with
    | nil =>
      rw [List.intercalate]
      simp only [List.intersperse_single, List.flatten]
      rw [List.append_nil]
      exact splitAmp_no_amp (hfree p (by simp))
    | cons q qs =>
      have hstep : List.intercalate ['&'] (p :: q :: qs)
          = p ++ '&' :: List.intercalate ['&'] (q :: qs) := by
        simp [List.intercalate, List.intersperse]
      rw [hstep, splitAmp_append _ (hfree p (by simp)),
        ih (by simp) (fun r hr => hfree r (by simp [hr]))]

theorem isHexChar_hexChar (m : Nat) (h : m < 16) : isHexChar (hexChar m) = true := by
  interval_cases m <;> decide

theorem hexVal_hexChar (m : Nat) (h : m < 16) : hexVal (hexChar m) = m := by
  interval_cases m <;> decide

theorem pctDecode_cons (c : Char) (t : Str) (h : c ≠ '%') :
    pctDecode (c :: t)
      = match pctDecode t with
        | .ok r => .ok (c :: r)
        | .error e => .error e := by
  conv_lhs => rw [pctDecode.eq_def]
  split
  · rename_i heq
    exact absurd heq (by simp)
  · rename_i rest heq
    rw [List.cons.injEq] at heq
    exact absurd heq.1 h
  · rename_i c' rest hne heq
    rw [List.cons.injEq] at heq
    rw [heq.1, heq.2]

theorem pctDecode_esc (h1 h2 : Char) (t : Str)
    (hh1 : isHexChar h1 = true) (hh2 : isHexChar h2 = true) :
    pctDecode ('%' :: h1 :: h2 :: t)
      = match pctDecode t with
        | .ok r => .ok (Char.ofNat (16 * hexVal h1 + hexVal h2) :: r)
        | .error e => .error e := by
  conv_lhs => rw [pctDecode.eq_def]
  show (if isHexChar h1 = true ∧ isHexChar h2 = true then
      match pctDecode t with
      | Except.ok r => Except.ok (Char.ofNat (16 * hexVal h1 + hexVal h2) :: r)
      | Except.error e => Except.error e
    else Except.error Err.InvalidURLEscape) = _
  rw [if_pos ⟨hh1, hh2⟩]

theorem encChar_toNat_lt (c : Char) (h : ¬ isPlainChar c = true) : c.toNat < 128 := by
  by_contra hc
  exact h (by simp [isPlainChar]; omega)

theorem pctDecode_encode_append (s t : Str) :
    pctDecode (pctEncode s ++ t)
      = match pctDecode t with
        | .ok r => .ok (s ++ r)
        | .error e => .error e := by
  induction s with
  | nil =>
    show pctDecode t = _
    cases pctDecode t <;> rfl
  | cons c cs ih =>
    have hsplit : pctEncode (c :: cs) ++ t = encChar c ++ (pctEncode cs ++ t) := by
      simp only [pctEncode, List.flatMap_cons, List.append_assoc]
    rw [hsplit]
    by_cases hp : isPlainChar c
    · rw [encChar, if_pos hp, List.cons_append, List.nil_append]
      have hc : c ≠ '%' := by
        intro hceq
        rw [hceq] at hp
        exact absurd hp (by decide)
      rw [pctDecode_cons c _ hc, ih]
      cases pctDecode t <;> rfl
    · rw [encChar, if_neg hp]
      have hlt : c.toNat < 128 := encChar_toNat_lt c hp
      have hd : c.toNat / 16 < 16 := by omega
      have hm : c.toNat % 16 < 16 := by omega
      rw [List.cons_append, List.cons_append, List.cons_append, List.nil_append]
      rw [pctDecode_esc _ _ _ (isHexChar_hexChar _ hd) (isHexChar_hexChar _ hm)]
      rw [hexVal_hexChar _ hd, hexVal_hexChar _ hm]
      have hn : 16 * (c.toNat / 16) + c.toNat % 16 = c.toNat := by omega
      rw [hn, Char.ofNat_toNat, ih]
      cases pctDecode t <;> rfl

/-- Percent-decoding inverts percent-encoding. -/
theorem pctDecode_pctEncode (s : Str) : pctDecode (pctEncode s) = .ok s := by
  have h := pctDecode_encode_append s []
  rw [List.append_nil] at h
  rw [h]
  simp [pctDecode]

/-- Characters that the percent-encoder never emits. -/
theorem pctEncode_no (x : Char) (s : Str) (h1 : isPlainChar x = false)
    (h2 : isHexChar x = false) (h3 : x ≠ '%') : x ∉ pctEncode s := by
  intro hmem
  rw [pctEncode, List.mem_flatMap] at hmem
  obtain ⟨c, _, hc⟩ := hmem
  rw [encChar] at hc
  by_cases hp : isPlainChar c
  · rw [if_pos hp] at hc
    simp only [List.mem_singleton] at hc
    rw [hc] at h1
    rw [hp] at h1
    exact absurd h1 (by simp)
  · rw [if_neg hp] at hc
    have hlt : c.toNat < 128 := encChar_toNat_lt c hp
    simp only [List.mem_cons, List.mem_singleton, List.not_mem_nil, or_false] at hc
    rcases hc with hc | hc | hc
    · exact h3 hc
    · rw [hc, isHexChar_hexChar _ (by omega)] at h2
      exact absurd h2 (by simp)
    · rw [hc, isHexChar_hexChar _ (by omega)] at h2
      exact absurd h2 (by simp)

theorem decToString_no (x : Char) (n : Nat) (h : isDigitChar x = false) :
    x ∉ decToString n := by
  intro hmem
  have hall := decToString_all_digits n
  rw [List.all_eq_true] at hall
  have := hall x hmem
  rw [h] at this
  exact absurd this (by simp)

theorem pctEncode_ne_nil (s : Str) (h : s ≠ []) : pctEncode s ≠ [] := by
  cases s with
  | nil => exact absurd rfl h
  | cons c cs =>
    rw [pctEncode, List.flatMap_cons]
    rw [encChar]
    by_cases hp : isPlainChar c
    · rw [if_pos hp]
      simp
    · rw [if_neg hp]
      simp

theorem ParseURL_full (body : Str) :
    ParseURL (str "otpauth://" ++ body) = parseCore body := by
  have hbody : str "otpauth://" ++ body = str "otpauth:" ++ ('/' :: '/' :: body) := rfl
  rw [ParseURL, hbody]
  have h1 : (str "otpauth:").isPrefixOf (str "otpauth:" ++ ('/' :: '/' :: body)) = true := by
    rw [List.isPrefixOf_iff_prefix]
    exact ⟨_, rfl⟩
  rw [h1]
  rw [if_neg (by simp)]
  have h2 : (str "otpauth:" ++ ('/' :: '/' :: body)).drop 8 = '/' :: '/' :: body := rfl
  simp only [eq_self_iff_true, if_true, h2]
  have h3 : (str "//").isPrefixOf ('/' :: '/' :: body) = true := by
    rw [List.isPrefixOf_iff_prefix]
    exact ⟨_, rfl⟩
  rw [h3]
  simp only [eq_self_iff_true, if_true]
  rfl

theorem ParseURL_dslash (s : Str) : ParseURL ('/' :: '/' :: s) = parseCore s := by
  rw [ParseURL]
  have h1 : (str "otpauth:").isPrefixOf ('/' :: '/' :: s) = false := by
    simp [str, List.isPrefixOf]
  rw [h1]
  rw [if_neg (by rw [schemeLike]; simp)]
  have h3 : (str "//").isPrefixOf ('/' :: '/' :: s) = true := by
    rw [List.isPrefixOf_iff_prefix]
    exact ⟨_, rfl⟩
  simp only [Bool.false_eq_true, if_false, h3, eq_self_iff_true, if_true]
  rfl

theorem otpauth_not_pre (host rest : Str) (hc : ':' ∉ host) :
    (str "otpauth:").isPrefixOf (host ++ '/' :: rest) = false := by
  by_contra h
  rw [Bool.not_eq_false] at h
  have hp : str "otpauth:" <+: (host ++ '/' :: rest) :=
    List.isPrefixOf_iff_prefix.mp h
  obtain ⟨t, ht⟩ := hp
  have h8' : (str "otpauth:" ++ t).take 8 = str "otpauth:" := by
    rw [List.take_append_eq_append_take]
    have hl : (str "otpauth:").length = 8 := rfl
    rw [hl]
    simp [List.take_of_length_le (le_of_eq hl)]
  by_cases hlen : 8 ≤ host.length
  · have h8 : (host ++ '/' :: rest).take 8 = host.take 8 := by
      rw [List.take_append_eq_append_take]
      have : 8 - host.length = 0 := by omega
      rw [this, List.take_zero, List.append_nil]
    have heq : str "otpauth:" = host.take 8 := by
      rw [← h8', ht, h8]
    have hcolon : ':' ∈ host.take 8 := by
      rw [← heq]; decide
    exact hc (List.take_subset 8 host hcolon)
  · have hmem : '/' ∈ (host ++ '/' :: rest).take 8 := by
      rw [List.take_append_eq_append_take]
      apply List.mem_append_right
      cases hk : 8 - host.length with
      | zero => omega
      | succ k => simp
    rw [← ht, h8'] at hmem
    exact absurd hmem (by decide)

theorem schemeLike_slash (host rest : Str) (hc : ':' ∉ host) :
    schemeLike (host ++ '/' :: rest) = false := by
  induction host with
  | nil => rfl
  | cons c cs ih =>
    simp only [List.mem_cons, not_or] at hc
    rw [List.cons_append, schemeLike, List.dropWhile_cons]
    by_cases hp : c ≠ ':' ∧ c ≠ '/' ∧ c ≠ '?'
    · rw [if_pos (by simpa using hp)]
      have := ih hc.2
      rw [schemeLike] at this
      exact this
    · rw [if_neg (by simpa using hp)]
      push_neg at hp
      rcases Decidable.em (c = '/') with hcv | hcv
      · subst hcv; rfl
      · rcases Decidable.em (c = '?') with hcq | hcq
        · subst hcq; rfl
        · have : c = ':' := by tauto
          exact absurd this.symm hc.1

theorem dslash_not_pre (host rest : Str) (hne : host ≠ []) (hs : '/' ∉ host) :
    (str "//").isPrefixOf (host ++ '/' :: rest) = false := by
  cases host with
  | nil => exact absurd rfl hne
  | cons c cs =>
    simp only [List.mem_cons, not_or] at hs
    show (('/' == c) && (str "/").isPrefixOf (cs ++ '/' :: rest)) = false
    have : ('/' == c) = false := by
      simp only [beq_eq_false_iff_ne, ne_eq]
      exact hs.1
    rw [this, Bool.false_and]

theorem ParseURL_bare (host rest : Str) (hne : host ≠ []) (hc : ':' ∉ host)
    (hs : '/' ∉ host) :
    ParseURL (host ++ '/' :: rest) = parseCore (host ++ '/' :: rest) := by
  rw [ParseURL]
  rw [otpauth_not_pre host rest hc]
  rw [if_neg (by rw [schemeLike_slash host rest hc]; simp)]
  simp only [Bool.false_eq_true, if_false]
  rw [dslash_not_pre host rest hne hs]
  simp

/-- C4. For a text of the shape `host/path?query` (a nonempty `host`
segment free of `:` and `/` before the first slash), the parser yields
identical results on the bare form, the `//`-prefixed form, and the fully
`otpauth://`-qualified form — in particular it fails on all three or
succeeds on all three with identical entities. -/
theorem ParseURL_three_forms (host rest : Str) (hne : host ≠ [])
    (hc : ':' ∉ host) (hs : '/' ∉ host) :
    ParseURL (str "//" ++ (host ++ '/' :: rest)) = ParseURL (host ++ '/' :: rest) ∧
    ParseURL (str "otpauth://" ++ (host ++ '/' :: rest))
      = ParseURL (host ++ '/' :: rest) := by
  rw [ParseURL_bare host rest hne hc hs]
  constructor
  · show ParseURL ('/' :: '/' :: (host ++ '/' :: rest)) = _
    rw [ParseURL_dslash]
  · rw [ParseURL_full]

/-- Witness for C4 at `totp/alice?digits=8`: all three forms parse equally. -/
theorem ParseURL_three_forms_witness :
    ParseURL (str "//totp/alice?digits=8") = ParseURL (str "totp/alice?digits=8") ∧
    ParseURL (str "otpauth://totp/alice?digits=8")
      = ParseURL (str "totp/alice?digits=8") :=
  ParseURL_three_forms (str "totp") (str "alice?digits=8") (by decide)
    (by decide) (by decide)

theorem parseCore_query (ty lbl q : Str) (h1 : '/' ∉ ty) (h2 : '?' ∉ ty)
    (h3 : '?' ∉ lbl) (hty : ty ≠ []) (hlbl : lbl ≠ []) :
    parseCore (ty ++ '/' :: (lbl ++ '?' :: q))
      = match parseLabel lbl with
        | .error e => .error e
        | .ok (iss, acc) =>
          match parseQuery { «Type» := ty, Issuer := iss, Account := acc } q with
          | .error e => .error e
          | .ok u => .ok (defaulted u) := by
  rw [parseCore]
  have hassoc : ty ++ '/' :: (lbl ++ '?' :: q) = (ty ++ '/' :: lbl) ++ '?' :: q := by
    simp
  have hq : splitFirst '?' (ty ++ '/' :: (lbl ++ '?' :: q))
      = some (ty ++ '/' :: lbl, q) := by
    rw [hassoc]
    apply splitFirst_append
    intro hmem
    rcases List.mem_append.mp hmem with hm | hm
    · exact h2 hm
    · rcases List.mem_cons.mp hm with hm' | hm'
      · exact absurd hm' (by decide)
      · exact h3 hm'
  rw [hq]
  show (match splitFirst '/' (ty ++ '/' :: lbl) with
        | none => Except.error Err.InvalidTypeOrLabel
        | some (ty, lbl) =>
          if ty = [] ∨ lbl = [] then Except.error Err.InvalidTypeOrLabel
          else
            match parseLabel lbl with
            | .error e => .error e
            | .ok (iss, acc) =>
              match parseQuery { «Type» := ty, Issuer := iss, Account := acc } q with
              | .error e => .error e
              | .ok u => .ok (defaulted u)) = _
  rw [splitFirst_append lbl h1]
  show (if ty = [] ∨ lbl = [] then Except.error Err.InvalidTypeOrLabel
        else
          match parseLabel lbl with
          | .error e => .error e
          | .ok (iss, acc) =>
            match parseQuery { «Type» := ty, Issuer := iss, Account := acc } q with
            | .error e => .error e
            | .ok u => .ok (defaulted u)) = _
  rw [if_neg (by simp [hty, hlbl])]

theorem parseCore_noquery (ty lbl : Str) (h1 : '/' ∉ ty) (h2 : '?' ∉ ty)
    (h3 : '?' ∉ lbl) (hty : ty ≠ []) (hlbl : lbl ≠ []) :
    parseCore (ty ++ '/' :: lbl)
      = match parseLabel lbl with
        | .error e => .error e
        | .ok (iss, acc) =>
          .ok (defaulted { «Type» := ty, Issuer := iss, Account := acc }) := by
  rw [parseCore]
  have hq : splitFirst '?' (ty ++ '/' :: lbl) = none := by
    apply splitFirst_not_mem
    intro hmem
    rcases List.mem_append.mp hmem with hm | hm
    · exact h2 hm
    · rcases List.mem_cons.mp hm with hm' | hm'
      · exact absurd hm' (by decide)
      · exact h3 hm'
  rw [hq]
  show (match splitFirst '/' (ty ++ '/' :: lbl) with
        | none => Except.error Err.InvalidTypeOrLabel
        | some (ty, lbl) =>
          if ty = [] ∨ lbl = [] then Except.error Err.InvalidTypeOrLabel
          else
            match parseLabel lbl with
            | .error e => .error e
            | .ok (iss, acc) =>
              .ok (defaulted { «Type» := ty, Issuer := iss, Account := acc })) = _
  rw [splitFirst_append lbl h1]
  show (if ty = [] ∨ lbl = [] then Except.error Err.InvalidTypeOrLabel
        else
          match parseLabel lbl with
          | .error e => .error e
          | .ok (iss, acc) =>
            .ok (defaulted { «Type» := ty, Issuer := iss, Account := acc })) = _
  rw [if_neg (by simp [hty, hlbl])]

/-- C7 counterexample. On `otpauth://totp/:` both segments around the colon
decode to empty; the parser reports `EmptyAccountName`, so the claim's
EmptyIssuer clause does not hold as stated for every empty issuer prefix. -/
theorem colon_both_empty_counterexample :
    ParseURL (str "otpauth://totp/:") = .error .EmptyAccountName ∧
      Err.EmptyAccountName ≠ Err.EmptyIssuer := by
  constructor
  · decide
  · decide

/-- Unfolding of `parseLabel` when the decoded label has a colon. -/
theorem parseLabel_colon (raw dec pre suf : Str)
    (hdec : pctDecode raw = .ok dec)
    (hsplit : splitFirst ':' dec = some (pre, suf)) :
    parseLabel raw
      = if dropLeadingSpaces suf = [] then .error .EmptyAccountName
        else if dropTrailingSpaces pre = [] then .error .EmptyIssuer
        else .ok (dropTrailingSpaces pre, dropLeadingSpaces suf) := by
  rw [parseLabel, hdec]
  show (match splitFirst ':' dec with
        | none => Except.ok ([], dec)
        | some (pre, suf) =>
          let acc := dropLeadingSpaces suf
          if acc = [] then Except.error Err.EmptyAccountName
          else
            let iss := dropTrailingSpaces pre
            if iss = [] then Except.error Err.EmptyIssuer
            else Except.ok (iss, acc)) = _
  rw [hsplit]

/-- Unfolding of `parseLabel` when the decoded label has no colon. -/
theorem parseLabel_nocolon (raw dec : Str)
    (hdec : pctDecode raw = .ok dec)
    (hsplit : splitFirst ':' dec = none) :
    parseLabel raw = .ok ([], dec) := by
  rw [parseLabel, hdec]
  show (match splitFirst ':' dec with
        | none => Except.ok ([], dec)
        | some (pre, suf) =>
          let acc := dropLeadingSpaces suf
          if acc = [] then Except.error Err.EmptyAccountName
          else
            let iss := dropTrailingSpaces pre
            if iss = [] then Except.error Err.EmptyIssuer
            else Except.ok (iss, acc)) = _
  rw [hsplit]

/-- C7 (amended). On a well-formed input whose label decodes with a colon
separator, the parser fails `EmptyAccountName` whenever the account suffix
is empty after the post-colon spaces are discarded, and fails `EmptyIssuer`
whenever the account suffix is non-empty and the issuer prefix is empty
after its trailing spaces are discarded. -/
theorem parse_colon_errors (ty lblRaw dec pre suf : Str)
    (h1 : '/' ∉ ty) (h2 : '?' ∉ ty) (h3 : '?' ∉ lblRaw)
    (hty : ty ≠ []) (hlbl : lblRaw ≠ [])
    (hdec : pctDecode lblRaw = .ok dec)
    (hsplit : splitFirst ':' dec = some (pre, suf)) :
    (dropLeadingSpaces suf = [] →
      ParseURL (str "otpauth://" ++ (ty ++ '/' :: lblRaw))
        = .error .EmptyAccountName) ∧
    (dropLeadingSpaces suf ≠ [] → dropTrailingSpaces pre = [] →
      ParseURL (str "otpauth://" ++ (ty ++ '/' :: lblRaw))
        = .error .EmptyIssuer) := by
  rw [ParseURL_full, parseCore_noquery ty lblRaw h1 h2 h3 hty hlbl,
    parseLabel_colon lblRaw dec pre suf hdec hsplit]
  constructor
  · intro hacc
    rw [if_pos hacc]
  · intro hacc hiss
    rw [if_neg hacc, if_pos hiss]

/-- Witness for C7 (amended): `otpauth://totp/x:` reports the empty account,
`otpauth://totp/:y` reports the empty issuer. -/
theorem parse_colon_errors_witness :
    ParseURL (str "otpauth://totp/x:") = .error .EmptyAccountName ∧
      ParseURL (str "otpauth://totp/:y") = .error .EmptyIssuer := by
  constructor
  · exact (parse_colon_errors (str "totp") (str "x:") (str "x:") (str "x") []
      (by decide) (by decide) (by decide) (by decide) (by decide)
      (by decide) (by decide)).1 (by decide)
  · exact (parse_colon_errors (str "totp") (str ":y") (str ":y") [] (str "y")
      (by decide) (by decide) (by decide) (by decide) (by decide)
      (by decide) (by decide)).2 (by decide) (by decide)

/-- C8. Whenever a well-formed input's query string contains a key outside
the recognized set, the parser fails `InvalidParameter`, regardless of the
values of any other parameters. -/
theorem parse_unknown_key (ty lblRaw q : Str)
    (h1 : '/' ∉ ty) (h2 : '?' ∉ ty) (h3 : '?' ∉ lblRaw)
    (hty : ty ≠ []) (hlbl : lblRaw ≠ [])
    (hlabel : ∃ ia, parseLabel lblRaw = .ok ia)
    (hbad : ∃ kv ∈ (splitAmp q).map splitKV, kv.1 ∉ knownKeys) :
    ParseURL (str "otpauth://" ++ (ty ++ '/' :: (lblRaw ++ '?' :: q)))
      = .error .InvalidParameter := by
  obtain ⟨⟨iss, acc⟩, hia⟩ := hlabel
  rw [ParseURL_full, parseCore_query ty lblRaw q h1 h2 h3 hty hlbl, hia]
  show (match parseQuery { «Type» := ty, Issuer := iss, Account := acc } q with
        | .error e => Except.error e
        | .ok u => .ok (defaulted u)) = _
  rw [parseQuery]
  have hall : ((splitAmp q).map splitKV).all
      (fun kv => decide (kv.1 ∈ knownKeys)) = false := by
    obtain ⟨kv, hmem, hk⟩ := hbad
    rw [List.all_eq_false]
    exact ⟨kv, hmem, by simpa using hk⟩
  rw [hall]
  rfl

/-- Witness for C8: `otpauth://totp/foo?digits=25&invalid=what` fails with
`InvalidParameter` although `digits=25` is a perfectly valid parameter. -/
theorem parse_unknown_key_witness :
    ParseURL (str "otpauth://totp/foo?digits=25&invalid=what")
      = .error .InvalidParameter := by
  have h := parse_unknown_key (str "totp") (str "foo") (str "digits=25&invalid=what")
    (by decide) (by decide) (by decide) (by decide) (by decide)
    ⟨(str "", str "foo"), by decide⟩
    ⟨(str "invalid", str "what"), by decide⟩
  exact h

theorem mem_ite_nil {α : Type} (a : α) (c : Prop) [Decidable c] (x : α) :
    (a ∈ (if c then [x] else ([] : List α))) ↔ c ∧ a = x := by
  split
  · rename_i h
    simp [h]
  · rename_i h
    simp [h]

theorem encParams_keys_sublist (u : URL) :
    List.Sublist ((encParams u).map Prod.fst) knownKeys := by
  rw [encParams, knownKeys]
  repeat rw [List.map_append]
  have hks : [str "algorithm", str "counter", str "digits", str "issuer",
      str "period", str "secret"]
      = (((([str "algorithm"] ++ [str "counter"]) ++ [str "digits"])
        ++ [str "issuer"]) ++ [str "period"]) ++ [str "secret"] := rfl
  rw [hks]
  refine List.Sublist.append (List.Sublist.append (List.Sublist.append
    (List.Sublist.append (List.Sublist.append ?_ ?_) ?_) ?_) ?_) ?_ <;>
    (split <;> simp)

theorem pctEncode_no_qmark (s : Str) : '?' ∉ pctEncode s :=
  pctEncode_no '?' s (by decide) (by decide) (by decide)

theorem encLabel_getLast_ne (u : URL) (hacc : u.Account ≠ []) :
    (encLabel u).getLast? ≠ some '?' := by
  have hne := pctEncode_ne_nil u.Account hacc
  obtain ⟨l', x, hlx⟩ : ∃ l' x, pctEncode u.Account = l' ++ [x] :=
    ⟨_, _, (List.dropLast_append_getLast hne).symm⟩
  have hxmem : x ∈ pctEncode u.Account := by rw [hlx]; simp
  have hxne : x ≠ '?' := fun hx => pctEncode_no_qmark u.Account (hx ▸ hxmem)
  rw [encLabel]
  split
  · rw [hlx]
    have hsh : pctEncode u.Issuer ++ ':' :: (l' ++ [x])
        = (pctEncode u.Issuer ++ ':' :: l') ++ [x] := by simp
    rw [hsh, List.getLast?_concat]
    simp [hxne]
  · rw [hlx, List.getLast?_concat]
    simp [hxne]

theorem getLast?_append_right (l₁ l₂ : Str) (h : l₂ ≠ []) :
    (l₁ ++ l₂).getLast? = l₂.getLast? := by
  conv_lhs => rw [← List.dropLast_append_getLast h]
  conv_rhs => rw [← List.dropLast_append_getLast h]
  rw [← List.append_assoc, List.getLast?_concat, List.getLast?_concat]

theorem encLabel_ne_nil (u : URL) (hacc : u.Account ≠ []) : encLabel u ≠ [] := by
  rw [encLabel]
  split
  · simp
  · exact pctEncode_ne_nil u.Account hacc

/-- C5. The encoder's query parameters: the emitted keys are sorted in
strict alphabetical (lexicographic) order, each parameter appears exactly
under its condition — `algorithm` iff non-empty (uppercased), `counter`
iff the type is case-insensitively hotp (also for counter 0), `digits`
iff non-zero, `issuer` iff non-empty, `period` iff non-zero, `secret` iff
non-empty (verbatim) — and when no parameter is emitted the output is the
bare label form with no trailing `?`. -/
theorem encoder_params_spec (u : URL) :
    List.Sorted (List.Lex (· < ·)) ((encParams u).map Prod.fst) ∧
    ((str "algorithm", pctEncode (toUpperStr u.Algorithm)) ∈ encParams u
      ↔ u.Algorithm ≠ []) ∧
    ((str "counter", decToString u.Counter) ∈ encParams u ↔ isHOTP u = true) ∧
    ((str "digits", decToString u.Digits) ∈ encParams u ↔ u.Digits ≠ 0) ∧
    ((str "issuer", pctEncode u.Issuer) ∈ encParams u ↔ u.Issuer ≠ []) ∧
    ((str "period", decToString u.Period) ∈ encParams u ↔ u.Period ≠ 0) ∧
    ((str "secret", u.RawSecret) ∈ encParams u ↔ u.RawSecret ≠ []) ∧
    (encParams u = [] → u.Account ≠ [] →
      URL.toText u = str "otpauth://" ++ u.«Type» ++ '/' :: encLabel u ∧
        (URL.toText u).getLast? ≠ some '?') := by
  have hms : List.Sorted (List.Lex (· < ·)) knownKeys := by decide
  have k12 : str "algorithm" ≠ str "counter" := by decide
  have k13 : str "algorithm" ≠ str "digits" := by decide
  have k14 : str "algorithm" ≠ str "issuer" := by decide
  have k15 : str "algorithm" ≠ str "period" := by decide
  have k16 : str "algorithm" ≠ str "secret" := by decide
  have k23 : str "counter" ≠ str "digits" := by decide
  have k24 : str "counter" ≠ str "issuer" := by decide
  have k25 : str "counter" ≠ str "period" := by decide
  have k26 : str "counter" ≠ str "secret" := by decide
  have k34 : str "digits" ≠ str "issuer" := by decide
  have k35 : str "digits" ≠ str "period" := by decide
  have k36 : str "digits" ≠ str "secret" := by decide
  have k45 : str "issuer" ≠ str "period" := by decide
  have k46 : str "issuer" ≠ str "secret" := by decide
  have k56 : str "period" ≠ str "secret" := by decide
  refine ⟨List.Pairwise.sublist (encParams_keys_sublist u) hms, ?_, ?_, ?_, ?_, ?_, ?_, ?_⟩
  · rw [encParams]
    simp only [List.mem_append, mem_ite_nil, Prod.mk.injEq]
    simp [k12, k13, k14, k15, k16]
  · rw [encParams]
    simp only [List.mem_append, mem_ite_nil, Prod.mk.injEq]
    simp [k12.symm, k23, k24, k25, k26]
  · rw [encParams]
    simp only [List.mem_append, mem_ite_nil, Prod.mk.injEq]
    simp [k13.symm, k23.symm, k34, k35, k36]
  · rw [encParams]
    simp only [List.mem_append, mem_ite_nil, Prod.mk.injEq]
    simp [k14.symm, k24.symm, k34.symm, k45, k46]
  · rw [encParams]
    simp only [List.mem_append, mem_ite_nil, Prod.mk.injEq]
    simp [k15.symm, k25.symm, k35.symm, k45.symm, k56]
  · rw [encParams]
    simp only [List.mem_append, mem_ite_nil, Prod.mk.injEq]
    simp [k16.symm, k26.symm, k36.symm, k46.symm, k56.symm]
  · intro hps hacc
    have htext : URL.toText u
        = str "otpauth://" ++ u.«Type» ++ '/' :: encLabel u := by
      rw [URL.toText, hps]
      simp
    refine ⟨htext, ?_⟩
    rw [htext]
    have hsh : str "otpauth://" ++ u.«Type» ++ '/' :: encLabel u
        = (str "otpauth://" ++ u.«Type» ++ ['/']) ++ encLabel u := by
      simp
    rw [hsh, getLast?_append_right _ _ (encLabel_ne_nil u hacc)]
    exact encLabel_getLast_ne u hacc

/-- Witness for C5 at the `otpauth://totp/foo` vector: no parameters are
emitted and the output has no trailing question mark; at the hotp vector
the counter parameter is present even though its value is 0. -/
theorem encoder_params_spec_witness :
    (URL.toText { «Type» := str "totp", Account := str "foo" }).getLast?
        ≠ some '?' ∧
    ((str "counter", decToString 0)
      ∈ encParams { «Type» := str "hotp", Account := str "x", Issuer := str "bob" }) := by
  constructor
  · exact ((encoder_params_spec { «Type» := str "totp", Account := str "foo" }).2.2.2.2.2.2.2
      (by decide) (by decide)).2
  · exact (encoder_params_spec
      { «Type» := str "hotp", Account := str "x", Issuer := str "bob" }).2.2.1.mpr
      (by decide)

/-- C1 counterexample. A totp entity with a non-zero Counter does not
survive the round trip: the encoder only emits `counter` for hotp, so the
parsed entity carries Counter 0 where the claim demands the original 1. -/
theorem roundtrip_counter_counterexample :
    ParseURL (URL.toText { «Type» := str "totp", Account := str "a", Counter := 1 })
      = .ok { «Type» := str "totp", Account := str "a", Algorithm := str "SHA1",
              Digits := 6, Period := 30, Counter := 0 } ∧
    ({ «Type» := str "totp", Account := str "a", Algorithm := str "SHA1",
       Digits := 6, Period := 30, Counter := 0 } : URL)
      ≠ { «Type» := str "totp", Account := str "a", Algorithm := str "SHA1",
          Digits := 6, Period := 30, Counter := 1 } := by
  constructor
  · decide
  · decide

theorem applyParam_algorithm (u : URL) (x : Str) :
    applyParam u (str "algorithm", pctEncode x) = .ok { u with Algorithm := x } := by
  rw [applyParam]
  rw [if_neg (by decide), if_neg (by decide), if_pos rfl, pctDecode_pctEncode]

theorem applyParam_counter (u : URL) (n : Nat) :
    applyParam u (str "counter", decToString n) = .ok { u with Counter := n } := by
  rw [applyParam]
  rw [if_neg (by decide), if_neg (by decide), if_neg (by decide),
    if_neg (by decide), if_neg (by decide), if_pos rfl, parseDecimal_decToString]

theorem applyParam_digits (u : URL) (n : Nat) :
    applyParam u (str "digits", decToString n) = .ok { u with Digits := n } := by
  rw [applyParam]
  rw [if_neg (by decide), if_neg (by decide), if_neg (by decide),
    if_pos rfl, parseDecimal_decToString]

theorem applyParam_issuer (u : URL) (x : Str) :
    applyParam u (str "issuer", pctEncode x) = .ok { u with Issuer := x } := by
  rw [applyParam]
  rw [if_neg (by decide), if_pos rfl, pctDecode_pctEncode]

theorem applyParam_period (u : URL) (n : Nat) :
    applyParam u (str "period", decToString n) = .ok { u with Period := n } := by
  rw [applyParam]
  rw [if_neg (by decide), if_neg (by decide), if_neg (by decide),
    if_neg (by decide), if_pos rfl, parseDecimal_decToString]

theorem applyParam_secret (u : URL) (v : Str) :
    applyParam u (str "secret", v) = .ok { u with RawSecret := v } := by
  rw [applyParam]
  rw [if_pos rfl]

theorem parseLabel_encLabel (u : URL) (hacc : u.Account ≠ [])
    (hcA : ':' ∉ u.Account) (hcI : ':' ∉ u.Issuer)
    (hIsp : dropTrailingSpaces u.Issuer = u.Issuer)
    (hAsp : dropLeadingSpaces u.Account = u.Account) :
    parseLabel (encLabel u) = .ok (u.Issuer, u.Account) := by
  rw [encLabel]
  split
  · rename_i hIss
    have hdec : pctDecode (pctEncode u.Issuer ++ ':' :: pctEncode u.Account)
        = .ok (u.Issuer ++ ':' :: u.Account) := by
      rw [pctDecode_encode_append, pctDecode_cons ':' _ (by decide),
        pctDecode_pctEncode]
    have hsplit : splitFirst ':' (u.Issuer ++ ':' :: u.Account)
        = some (u.Issuer, u.Account) := splitFirst_append _ hcI
    rw [parseLabel_colon _ _ _ _ hdec hsplit, hAsp, hIsp]
    rw [if_neg hacc, if_neg hIss]
  · rename_i hIss
    have hsplit : splitFirst ':' u.Account = none := splitFirst_not_mem hcA
    rw [parseLabel_nocolon _ _ (pctDecode_pctEncode u.Account) hsplit]
    rw [show u.Issuer = [] from not_not.mp hIss]

theorem encParams_nil (u : URL) (h : encParams u = []) :
    u.Algorithm = [] ∧ isHOTP u = false ∧ u.Digits = 0 ∧ u.Issuer = [] ∧
      u.Period = 0 ∧ u.RawSecret = [] := by
  rw [encParams] at h
  simp only [List.append_eq_nil] at h
  obtain ⟨⟨⟨⟨⟨h1, h2⟩, h3⟩, h4⟩, h5⟩, h6⟩ := h
  refine ⟨?_, ?_, ?_, ?_, ?_, ?_⟩
  · by_contra hc
    rw [if_pos hc] at h1
    exact absurd h1 (by simp)
  · by_cases hb : isHOTP u = true
    · rw [if_pos hb] at h2
      exact absurd h2 (by simp)
    · exact Bool.not_eq_true _ ▸ (by simpa using hb)
  · by_contra hc
    rw [if_pos hc] at h3
    exact absurd h3 (by simp)
  · by_contra hc
    rw [if_pos hc] at h4
    exact absurd h4 (by simp)
  · by_contra hc
    rw [if_pos hc] at h5
    exact absurd h5 (by simp)
  · by_contra hc
    rw [if_pos hc] at h6
    exact absurd h6 (by simp)

theorem encParams_keys_known (u : URL) :
    ∀ kv ∈ encParams u, kv.1 ∈ knownKeys := fun kv h =>
  (encParams_keys_sublist u).subset (List.mem_map_of_mem Prod.fst h)

theorem knownKeys_wellformed :
    ∀ k ∈ knownKeys, '&' ∉ k ∧ '=' ∉ k ∧ k ≠ [] := by decide

theorem pctEncode_no_amp (s : Str) : '&' ∉ pctEncode s :=
  pctEncode_no '&' s (by decide) (by decide) (by decide)

theorem decToString_no_amp (n : Nat) : '&' ∉ decToString n :=
  decToString_no '&' n (by decide)

theorem encParams_values_amp_free (u : URL) (hsec : '&' ∉ u.RawSecret) :
    ∀ kv ∈ encParams u, '&' ∉ kv.2 := by
  intro kv h
  rw [encParams] at h
  simp only [List.mem_append, mem_ite_nil] at h
  rcases h with ((((⟨_, hkv⟩ | ⟨_, hkv⟩) | ⟨_, hkv⟩) | ⟨_, hkv⟩) | ⟨_, hkv⟩) | ⟨_, hkv⟩ <;>
    subst hkv
  · exact pctEncode_no_amp _
  · exact decToString_no_amp _
  · exact decToString_no_amp _
  · exact pctEncode_no_amp _
  · exact decToString_no_amp _
  · exact hsec

theorem parseQuery_params (u₀ : URL) (ps : List (Str × Str)) (hne : ps ≠ [])
    (hkeys : ∀ kv ∈ ps, kv.1 ∈ knownKeys)
    (hv : ∀ kv ∈ ps, '&' ∉ kv.2) :
    parseQuery u₀ (List.intercalate ['&'] (ps.map renderParam))
      = ps.foldlM applyParam u₀ := by
  have hpieces : splitAmp (List.intercalate ['&'] (ps.map renderParam))
      = ps.map renderParam := by
    apply splitAmp_intercalate
    · simpa using hne
    · intro p hp
      rw [List.mem_map] at hp
      obtain ⟨kv, hkv, rfl⟩ := hp
      rw [renderParam]
      intro hmem
      rcases List.mem_append.mp hmem with hm | hm
      · exact (knownKeys_wellformed _ (hkeys kv hkv)).1 hm
      · rcases List.mem_cons.mp hm with hm' | hm'
        · exact absurd hm' (by decide)
        · exact hv kv hkv hm'
  rw [parseQuery, hpieces]
  have hkvs : (ps.map renderParam).map splitKV = ps := by
    rw [List.map_map]
    have hcong : ∀ kv ∈ ps, (splitKV ∘ renderParam) kv = id kv := by
      intro kv hkv
      show splitKV (kv.1 ++ '=' :: kv.2) = kv
      rw [splitKV, splitFirst_append _ (knownKeys_wellformed _ (hkeys kv hkv)).2.1]
    rw [List.map_congr_left hcong, List.map_id]
  rw [hkvs]
  have hall : ps.all (fun kv => decide (kv.1 ∈ knownKeys)) = true := by
    rw [List.all_eq_true]
    intro kv h
    simpa using hkeys kv h
  rw [hall]
  simp

theorem exceptOkBind {ε α β : Type} (a : α) (f : α → Except ε β) :
    (Except.ok a >>= f : Except ε β) = f a := rfl

theorem exceptPure {ε α : Type} (a : α) : (pure a : Except ε α) = Except.ok a := rfl

theorem foldlM_encParams (u u₀ : URL) :
    (encParams u).foldlM applyParam u₀
      = .ok { u₀ with
          Algorithm := if u.Algorithm = [] then u₀.Algorithm else toUpperStr u.Algorithm
          Counter := if isHOTP u then u.Counter else u₀.Counter
          Digits := if u.Digits = 0 then u₀.Digits else u.Digits
          Issuer := if u.Issuer = [] then u₀.Issuer else u.Issuer
          Period := if u.Period = 0 then u₀.Period else u.Period
          RawSecret := if u.RawSecret = [] then u₀.RawSecret else u.RawSecret } := by
  rw [encParams]
  by_cases hA : u.Algorithm = [] <;> by_cases hH : isHOTP u = true <;>
    by_cases hD : u.Digits = 0 <;> by_cases hI : u.Issuer = [] <;>
    by_cases hP : u.Period = 0 <;> by_cases hS : u.RawSecret = [] <;>
    simp [hA, hH, hD, hI, hP, hS, applyParam_algorithm, applyParam_counter,
      applyParam_digits, applyParam_issuer, applyParam_period, applyParam_secret,
      List.foldlM_cons, List.foldlM_nil, exceptOkBind, exceptPure]

theorem encLabel_no_qmark (u : URL) : '?' ∉ encLabel u := by
  rw [encLabel]
  split
  · intro h
    rcases List.mem_append.mp h with hm | hm
    · exact pctEncode_no_qmark _ hm
    · rcases List.mem_cons.mp hm with hm' | hm'
      · exact absurd hm' (by decide)
      · exact pctEncode_no_qmark _ hm'
  · exact pctEncode_no_qmark _

/-- C1 (amended). For an entity whose Type is non-empty and free of `/`
and `?`, whose Account is non-empty, whose Issuer and Account contain no
colon and no stray spaces at the separator, and whose RawSecret contains
no `&`, parsing the encoded text yields exactly the round-trip normal
form: Algorithm, Digits, Period defaulted to SHA1, 6, 30 when absent or
zero, Algorithm uppercased when present, and Counter zeroed unless the
type is case-insensitively hotp. -/
theorem parse_toText_roundtrip (u : URL)
    (hty : u.«Type» ≠ []) (htyS : '/' ∉ u.«Type») (htyQ : '?' ∉ u.«Type»)
    (hacc : u.Account ≠ []) (hcA : ':' ∉ u.Account) (hcI : ':' ∉ u.Issuer)
    (hIsp : dropTrailingSpaces u.Issuer = u.Issuer)
    (hAsp : dropLeadingSpaces u.Account = u.Account)
    (hsec : '&' ∉ u.RawSecret) :
    ParseURL (URL.toText u) = .ok (roundTripNormal u) := by
  by_cases hps : encParams u = []
  · have htext : URL.toText u
        = str "otpauth://" ++ (u.«Type» ++ '/' :: encLabel u) := by
      rw [URL.toText, hps]
      simp
    rw [htext, ParseURL_full,
      parseCore_noquery _ _ htyS htyQ (encLabel_no_qmark u) hty
        (encLabel_ne_nil u hacc),
      parseLabel_encLabel u hacc hcA hcI hIsp hAsp]
    obtain ⟨hA, hH, hD, hI, hP, hS⟩ := encParams_nil u hps
    show Except.ok (defaulted
      { «Type» := u.«Type», Issuer := u.Issuer, Account := u.Account }) = _
    rw [defaulted, roundTripNormal]
    simp [hA, hH, hD, hI, hP, hS]
  · have htext : URL.toText u
        = str "otpauth://" ++ (u.«Type» ++ '/' :: (encLabel u ++ '?' ::
            List.intercalate ['&'] ((encParams u).map renderParam))) := by
      rw [URL.toText]
      rcases hpse : encParams u with _ | ⟨p, ps'⟩
      · exact absurd hpse hps
      · simp
    rw [htext, ParseURL_full,
      parseCore_query _ _ _ htyS htyQ (encLabel_no_qmark u) hty
        (encLabel_ne_nil u hacc),
      parseLabel_encLabel u hacc hcA hcI hIsp hAsp]
    show (match parseQuery
        { «Type» := u.«Type», Issuer := u.Issuer, Account := u.Account }
        (List.intercalate ['&'] ((encParams u).map renderParam)) with
      | .error e => Except.error e
      | .ok u' => .ok (defaulted u')) = _
    rw [parseQuery_params _ _ hps (encParams_keys_known u)
      (encParams_values_amp_free u hsec)]
    rw [foldlM_encParams]
    show Except.ok (defaulted _) = _
    rw [defaulted, roundTripNormal]
    by_cases hA : u.Algorithm = [] <;> by_cases hH : isHOTP u = true <;>
      by_cases hD : u.Digits = 0 <;> by_cases hI : u.Issuer = [] <;>
      by_cases hP : u.Period = 0 <;> by_cases hS : u.RawSecret = [] <;>
      simp [hA, hH, hD, hI, hP, hS, toUpperStr]

/-- Witness for C1 (amended) at a concrete hotp entity with issuer,
secret, digits, period and counter all present. -/
theorem parse_toText_roundtrip_witness :
    ParseURL (URL.toText
      { «Type» := str "hotp", Issuer := str "Big Corp",
        Account := str "alice@example.com", RawSecret := str "MFYHA3DF",
        Algorithm := str "sha256", Digits := 8, Period := 60, Counter := 5 })
      = .ok (roundTripNormal
        { «Type» := str "hotp", Issuer := str "Big Corp",
          Account := str "alice@example.com", RawSecret := str "MFYHA3DF",
          Algorithm := str "sha256", Digits := 8, Period := 60, Counter := 5 }) := by
  exact parse_toText_roundtrip _ (by decide) (by decide) (by decide) (by decide)
    (by decide) (by decide) (by decide) (by decide) (by decide)

theorem wVarintAux_eq (fuel n : Nat) (h : n < fuel) :
    wVarintAux fuel n = wVarint n := by
  induction fuel using Nat.strong_induction_on generalizing n with
  | _ fuel ih =>
    match fuel, h with
    | f + 1, h =>
      rw [wVarint, wVarintAux, wVarintAux]
      by_cases h128 : n < 128
      · rw [if_pos h128, if_pos h128]
      · rw [if_neg h128, if_neg h128]
        have hdiv : n / 128 < n := Nat.div_lt_self (by omega) (by omega)
        rw [ih f (by omega) (n / 128) (by omega),
          ih n (by omega) (n / 128) (by omega)]

theorem wVarint_eq (n : Nat) :
    wVarint n = if n < 128 then [n] else (n % 128 + 128) :: wVarint (n / 128) := by
  show wVarintAux (n + 1) n = _
  rw [wVarintAux]
  by_cases h128 : n < 128
  · rw [if_pos h128, if_pos h128]
  · rw [if_neg h128, if_neg h128]
    have hdiv : n / 128 < n := Nat.div_lt_self (by omega) (by omega)
    rw [wVarintAux_eq n (n / 128) (by omega)]

theorem wVarint_lt256 (n : Nat) : ∀ x ∈ wVarint n, x < 256 := by
  induction n using Nat.strong_induction_on with
  | _ n ih =>
    rw [wVarint_eq]
    split
    · rename_i h
      intro x hx
      simp only [List.mem_singleton] at hx
      omega
    · rename_i h
      intro x hx
      rcases List.mem_cons.mp hx with hx' | hx'
      · omega
      · exact ih (n / 128) (Nat.div_lt_self (by omega) (by omega)) x hx'

theorem wVarint_len_le (k n : Nat) (hk : 1 ≤ k) (hn : n < 128 ^ k) :
    (wVarint n).length ≤ k := by
  induction k generalizing n with
  | zero => omega
  | succ k ih =>
    rw [wVarint_eq]
    by_cases h128 : n < 128
    · rw [if_pos h128]
      simp
    · rw [if_neg h128]
      rcases Nat.eq_zero_or_pos k with hk0 | hkpos
      · subst hk0
        rw [pow_one] at hn
        omega
      · have hdiv : n / 128 < 128 ^ k := by
          rw [Nat.div_lt_iff_lt_mul (by omega)]
          calc n < 128 ^ (k + 1) := hn
          _ = 128 ^ k * 128 := pow_succ 128 k
        have := ih (n / 128) hkpos hdiv
        simp only [List.length_cons]
        omega

theorem rVarintAux_wVarint (n : Nat) (fuel : Nat) (t : List Nat)
    (hf : (wVarint n).length ≤ fuel) :
    rVarintAux fuel (wVarint n ++ t) = some (n, t) := by
  induction n using Nat.strong_induction_on generalizing fuel with
  | _ n ih =>
    rw [wVarint_eq] at hf ⊢
    by_cases h128 : n < 128
    · rw [if_pos h128] at hf ⊢
      simp only [List.length_cons, List.length_nil] at hf
      match fuel, hf with
      | f + 1, _ =>
        rw [List.cons_append, List.nil_append, rVarintAux, if_pos h128]
    · rw [if_neg h128] at hf ⊢
      simp only [List.length_cons] at hf
      match fuel, hf with
      | f + 1, hf =>
        rw [List.cons_append, rVarintAux, if_neg (by omega)]
        have hdiv : n / 128 < n := Nat.div_lt_self (by omega) (by omega)
        rw [ih (n / 128) hdiv f (by omega)]
        show some ((n % 128 + 128) % 128 + 128 * (n / 128), t) = some (n, t)
        have harith : (n % 128 + 128) % 128 + 128 * (n / 128) = n := by omega
        rw [harith]

theorem rVarint_wVarint (n : Nat) (t : List Nat) (hn : n < 2 ^ 64) :
    rVarint (wVarint n ++ t) = some (n, t) := by
  apply rVarintAux_wVarint
  apply wVarint_len_le 10 n (by omega)
  calc n < 2 ^ 64 := hn
  _ < 128 ^ 10 := by norm_num

theorem rVarint_small (b : Nat) (h : b < 128) (rest : List Nat) :
    rVarint (b :: rest) = some (b, rest) := by
  rw [rVarint, rVarintAux, if_pos h]

theorem b64Val_b64Char (v : Nat) (h : v < 64) : b64Val (b64Char v) = some v := by
  rw [b64Char, b64Val]
  split
  · rename_i h1
    rw [char_toNat_ofNat _ (by omega)]
    rw [if_pos (by omega)]
    congr 1
    omega
  · split
    · rename_i h1 h2
      rw [char_toNat_ofNat _ (by omega)]
      rw [if_neg (by omega), if_pos (by omega)]
      congr 1
      omega
    · split
      · rename_i h1 h2 h3
        rw [char_toNat_ofNat _ (by omega)]
        rw [if_neg (by omega), if_neg (by omega), if_pos (by omega)]
        congr 1
        omega
      · split
        · rename_i h1 h2 h3 h4
          rw [char_toNat_ofNat _ (by omega)]
          rw [if_neg (by omega), if_neg (by omega), if_neg (by omega),
            if_pos (by omega)]
          congr 1
          omega
        · rename_i h1 h2 h3 h4
          rw [char_toNat_ofNat _ (by omega)]
          rw [if_neg (by omega), if_neg (by omega), if_neg (by omega),
            if_neg (by omega), if_pos (by omega)]
          congr 1
          omega

theorem b64dec_b64enc : ∀ bs : List Nat, (∀ b ∈ bs, b < 256) →
    b64dec (b64enc bs) = some bs
  | [] => fun _ => rfl
  | [a] => fun h => by
    have ha : a < 256 := h a (by simp)
    show (match b64Val (b64Char (a / 4)), b64Val (b64Char (a % 4 * 16)) with
      | some x, some y => some [x * 4 + y / 16]
      | _, _ => none) = some [a]
    rw [b64Val_b64Char _ (by omega), b64Val_b64Char _ (by omega)]
    show some [a / 4 * 4 + a % 4 * 16 / 16] = some [a]
    have e1 : a / 4 * 4 + a % 4 * 16 / 16 = a := by omega
    rw [e1]
  | [a, b] => fun h => by
    have ha : a < 256 := h a (by simp)
    have hb : b < 256 := h b (by simp)
    show (match b64Val (b64Char (a / 4)), b64Val (b64Char (a % 4 * 16 + b / 16)),
        b64Val (b64Char (b % 16 * 4)) with
      | some x, some y, some z => some [x * 4 + y / 16, y % 16 * 16 + z / 4]
      | _, _, _ => none) = some [a, b]
    rw [b64Val_b64Char _ (by omega), b64Val_b64Char _ (by omega),
      b64Val_b64Char _ (by omega)]
    show some [a / 4 * 4 + (a % 4 * 16 + b / 16) / 16,
      (a % 4 * 16 + b / 16) % 16 * 16 + b % 16 * 4 / 4] = some [a, b]
    have e1 : a / 4 * 4 + (a % 4 * 16 + b / 16) / 16 = a := by omega
    have e2 : (a % 4 * 16 + b / 16) % 16 * 16 + b % 16 * 4 / 4 = b := by omega
    rw [e1, e2]
  | a :: b :: c :: rest => fun h => by
    have ha : a < 256 := h a (by simp)
    have hb : b < 256 := h b (by simp)
    have hc : c < 256 := h c (by simp)
    show (match b64Val (b64Char (a / 4)), b64Val (b64Char (a % 4 * 16 + b / 16)),
        b64Val (b64Char (b % 16 * 4 + c / 64)), b64Val (b64Char (c % 64)),
        b64dec (b64enc rest) with
      | some x, some y, some z, some w, some tail =>
        some ((x * 4 + y / 16) :: (y % 16 * 16 + z / 4) :: (z % 4 * 64 + w) :: tail)
      | _, _, _, _, _ => none) = some (a :: b :: c :: rest)
    rw [b64Val_b64Char _ (by omega), b64Val_b64Char _ (by omega),
      b64Val_b64Char _ (by omega), b64Val_b64Char _ (by omega),
      b64dec_b64enc rest (fun x hx => h x (by simp [hx]))]
    show some ((a / 4 * 4 + (a % 4 * 16 + b / 16) / 16)
        :: ((a % 4 * 16 + b / 16) % 16 * 16 + (b % 16 * 4 + c / 64) / 4)
        :: ((b % 16 * 4 + c / 64) % 4 * 64 + c % 64) :: rest)
      = some (a :: b :: c :: rest)
    have e1 : a / 4 * 4 + (a % 4 * 16 + b / 16) / 16 = a := by omega
    have e2 : (a % 4 * 16 + b / 16) % 16 * 16 + (b % 16 * 4 + c / 64) / 4 = b := by
      omega
    have e3 : (b % 16 * 4 + c / 64) % 4 * 64 + c % 64 = c := by omega
    rw [e1, e2, e3]

theorem b64Char_ne_pad (v : Nat) : b64Char v ≠ '=' := by
  have h61 : ('=' : Char).toNat = 61 := rfl
  rw [b64Char]
  split_ifs <;>
    (intro hcon
     have := congrArg Char.toNat hcon
     rw [char_toNat_ofNat _ (by omega), h61] at this
     omega)

theorem b64enc_no_pad : ∀ bs : List Nat, '=' ∉ b64enc bs
  | [] => by simp [b64enc]
  | [a] => by
    intro hmem
    simp only [b64enc, List.mem_cons, List.not_mem_nil, or_false] at hmem
    rcases hmem with h | h <;> exact b64Char_ne_pad _ h.symm
  | [a, b] => by
    intro hmem
    simp only [b64enc, List.mem_cons, List.not_mem_nil, or_false] at hmem
    rcases hmem with h | h | h <;> exact b64Char_ne_pad _ h.symm
  | a :: b :: c :: rest => by
    intro hmem
    have : b64enc (a :: b :: c :: rest)
        = b64Char (a / 4) :: b64Char (a % 4 * 16 + b / 16) ::
          b64Char (b % 16 * 4 + c / 64) :: b64Char (c % 64) :: b64enc rest := rfl
    rw [this] at hmem
    simp only [List.mem_cons] at hmem
    rcases hmem with h | h | h | h | h
    · exact b64Char_ne_pad _ h.symm
    · exact b64Char_ne_pad _ h.symm
    · exact b64Char_ne_pad _ h.symm
    · exact b64Char_ne_pad _ h.symm
    · exact b64enc_no_pad rest h

theorem dropWhile_pad_eq_self (l : Str) (h : '=' ∉ l) :
    l.dropWhile (· = '=') = l := by
  cases l with
  | nil => rfl
  | cons c cs =>
    simp only [List.mem_cons, not_or] at h
    rw [List.dropWhile_cons, if_neg (by simpa using fun hc => h.1 hc.symm)]

theorem stripB64Pad_enc (bs : List Nat) : stripB64Pad (b64enc bs) = b64enc bs := by
  rw [stripB64Pad, dropWhile_pad_eq_self _ (by
    rw [List.mem_reverse]
    exact b64enc_no_pad bs), List.reverse_reverse]

theorem bytesToStr_strToBytes (s : Str) : bytesToStr (strToBytes s) = s := by
  rw [bytesToStr, strToBytes, List.map_map]
  have hcong : ∀ c ∈ s, (Char.ofNat ∘ Char.toNat) c = id c := fun c _ =>
    Char.ofNat_toNat c
  rw [List.map_congr_left hcong, List.map_id]

theorem strToBytes_lt256 (s : Str) (h : ∀ c ∈ s, c.toNat < 256) :
    ∀ b ∈ strToBytes s, b < 256 := by
  intro b hb
  rw [strToBytes, List.mem_map] at hb
  obtain ⟨c, hc, rfl⟩ := hb
  exact h c hc

/-- C3: decoding the literal migration text from the test vector succeeds
and yields exactly two records — hotp/"test 1" with secret
FUZZLEBUZZLEGIBBLEDIBBLE, SHA1, 6 digits, counter 3, and totp/"test 2"
with secret APPLEPIEISPEACHY, SHA1, 6 digits. -/
theorem parse_literal_migration :
    ParseMigrationURL (str "otpauth-migration://offline?data=CiEKDy0zlZA0zlZDICFZBoCFZBIGdGVzdCAxIAEoATABOAMKGgoKA96yPQREnkAI%2BBIGdGVzdCAyIAEoATACEAIYASAA")
      = .ok [{ «Type» := str "hotp", Account := str "test 1",
               RawSecret := str "FUZZLEBUZZLEGIBBLEDIBBLE",
               Algorithm := str "SHA1", Digits := 6, Counter := 3, Period := 30 },
             { «Type» := str "totp", Account := str "test 2",
               RawSecret := str "APPLEPIEISPEACHY",
               Algorithm := str "SHA1", Digits := 6, Period := 30 }] := by
  decide

/-- C6 counterexample. An entity whose Type and Algorithm are both
illegal makes the original claim demand two different errors at once; the
encoder reports `UnknownType`, so the `UnsupportedAlgorithm` clause is
violated on this input. -/
theorem migration_error_order_counterexample :
    encodeMigration [{ «Type» := str "bogus", Algorithm := str "wat" }]
        = .error .UnknownType
      ∧ Err.UnknownType ≠ Err.UnsupportedAlgorithm := by
  decide

theorem findSomeCons {α β : Type} (f : α → Option β) (a : α) (l : List α) :
    List.findSome? f (a :: l)
      = match f a with | some b => some b | none => List.findSome? f l := rfl

theorem encodeRecord_error_iff (e : URL) (err : Err) :
    encodeRecord e = .error err ↔ validateEntity e = some err := by
  rw [encodeRecord, validateEntity]
  cases htE : typeEnum e.«Type» with
  | none => simp
  | some tE =>
    cases haE : algEnum e.Algorithm with
    | none => simp
    | some aE =>
      cases hdE : digitsEnum e.Digits with
      | none => simp
      | some dE =>
        cases hsec : (if e.RawSecret = [] then some [] else decodeBase32 e.RawSecret) with
        | none => simp
        | some s => simp

theorem validateEntity_of_encodeRecord_ok (e : URL) (bs : List Nat)
    (h : encodeRecord e = .ok bs) : validateEntity e = none := by
  rw [encodeRecord] at h
  rw [validateEntity]
  cases htE : typeEnum e.«Type» with
  | none => rw [htE] at h; simp at h
  | some tE =>
    rw [htE] at h
    cases haE : algEnum e.Algorithm with
    | none => rw [haE] at h; simp at h
    | some aE =>
      rw [haE] at h
      cases hdE : digitsEnum e.Digits with
      | none => rw [hdE] at h; simp at h
      | some dE =>
        rw [hdE] at h
        cases hsec : (if e.RawSecret = [] then some [] else decodeBase32 e.RawSecret) with
        | none => rw [hsec] at h; simp at h
        | some s => rfl

/-- C6 (amended): the migration encoder fails with error `err` exactly
when scanning the entities in order, and checking each one in the order
Type, Algorithm, Digits, base32 secret, first reports `err`; in
particular an entity with several illegal fields yields only the
highest-priority error, not each of them. -/
theorem encodeMigration_error_iff : ∀ (es : List URL) (err : Err),
    encodeMigration es = .error err ↔ es.findSome? validateEntity = some err
  | [], err => by
    show Except.ok [] = Except.error err ↔ List.findSome? validateEntity [] = some err
    simp [List.findSome?]
  | e :: es, err => by
    rw [encodeMigration, findSomeCons]
    cases hrec : encodeRecord e with
    | error er =>
      rw [(encodeRecord_error_iff e er).mp hrec]
      cases hmig : encodeMigration es with
      | error er2 =>
        show Except.error er = Except.error err ↔ some er = some err
        simp
      | ok rest =>
        show Except.error er = Except.error err ↔ some er = some err
        simp
    | ok rec =>
      rw [validateEntity_of_encodeRecord_ok e rec hrec]
      cases hmig : encodeMigration es with
      | error er2 =>
        have hih := encodeMigration_error_iff es err
        rw [hmig] at hih
        show Except.error er2 = Except.error err ↔
          List.findSome? validateEntity es = some err
        exact hih
      | ok rest =>
        have hih := encodeMigration_error_iff es err
        rw [hmig] at hih
        show Except.ok (wBytesField 1 rec ++ rest) = Except.error err ↔
          List.findSome? validateEntity es = some err
        constructor
        · intro hcon
          exact absurd hcon (by simp)
        · intro hfs
          exact absurd (hih.mpr hfs) (by simp)

theorem wVarint_ne_nil (n : Nat) : wVarint n ≠ [] := by
  rw [wVarint_eq]
  split <;> simp

theorem decFields_pos (fuel : Nat) (st : RawRec) (l : List Nat) (hl : l ≠ [])
    (tag : Nat) (rest : List Nat) (htag : rVarint l = some (tag, rest)) :
    decFields (fuel + 1) st l
      = if tag % 8 = 0 then
          match rVarint rest with
          | none => Except.error Err.MalformedWireFormat
          | some (n, rest') =>
            decFields fuel
              (if tag / 8 = 4 then { st with alg := n }
               else if tag / 8 = 5 then { st with dig := n }
               else if tag / 8 = 6 then { st with typ := n }
               else if tag / 8 = 7 then { st with counter := n }
               else st) rest'
        else if tag % 8 = 2 then
          match rVarint rest with
          | none => Except.error Err.MalformedWireFormat
          | some (len, rest') =>
            if len ≤ rest'.length then
              decFields fuel
                (if tag / 8 = 1 then { st with secret := rest'.take len }
                 else if tag / 8 = 2 then { st with name := rest'.take len }
                 else if tag / 8 = 3 then { st with issuer := rest'.take len }
                 else st) (rest'.drop len)
            else Except.error Err.MalformedWireFormat
        else Except.error Err.MalformedWireFormat := by
  cases l with
  | nil => exact absurd rfl hl
  | cons b bs => rw [decFields, htag]

theorem decFields_step_bytes (fuel : Nat) (st : RawRec) (f : Nat) (bs T : List Nat)
    (hf : 8 * f + 2 < 2 ^ 64) (hlen : bs.length < 2 ^ 64) :
    decFields (fuel + 1) st (wBytesField f bs ++ T)
      = decFields fuel (applyField st (.bytesF f bs)) T := by
  have hform : wBytesField f bs ++ T
      = wVarint (8 * f + 2) ++ (wVarint bs.length ++ (bs ++ T)) := by
    rw [wBytesField, wTag]
    simp [List.append_assoc]
  have hne : wBytesField f bs ++ T ≠ [] := by
    rw [hform]
    intro hcon
    rcases List.append_eq_nil.mp hcon with ⟨h1, _⟩
    exact wVarint_ne_nil _ h1
  rw [decFields_pos fuel st _ hne (8 * f + 2) (wVarint bs.length ++ (bs ++ T))
    (by rw [hform]; exact rVarint_wVarint _ _ hf)]
  have hm : (8 * f + 2) % 8 = 2 := by omega
  have hd8 : (8 * f + 2) / 8 = f := by omega
  rw [hm, hd8, if_neg (by decide), if_pos rfl, rVarint_wVarint _ _ hlen]
  show (if bs.length ≤ (bs ++ T).length then
      decFields fuel
        (if f = 1 then { st with secret := (bs ++ T).take bs.length }
         else if f = 2 then { st with name := (bs ++ T).take bs.length }
         else if f = 3 then { st with issuer := (bs ++ T).take bs.length }
         else st) ((bs ++ T).drop bs.length)
    else Except.error Err.MalformedWireFormat)
    = decFields fuel (applyField st (WField.bytesF f bs)) T
  rw [if_pos (by simp only [List.length_append]; omega), List.take_left,
    List.drop_left]
  rfl

theorem decFields_step_var (fuel : Nat) (st : RawRec) (f n : Nat) (T : List Nat)
    (hf : 8 * f < 2 ^ 64) (hn : n < 2 ^ 64) :
    decFields (fuel + 1) st (wVarField f n ++ T)
      = decFields fuel (applyField st (.varF f n)) T := by
  have hform : wVarField f n ++ T = wVarint (8 * f) ++ (wVarint n ++ T) := by
    rw [wVarField, wTag]
    simp [List.append_assoc]
  have hne : wVarField f n ++ T ≠ [] := by
    rw [hform]
    intro hcon
    rcases List.append_eq_nil.mp hcon with ⟨h1, _⟩
    exact wVarint_ne_nil _ h1
  rw [decFields_pos fuel st _ hne (8 * f) (wVarint n ++ T)
    (by rw [hform]; exact rVarint_wVarint _ _ hf)]
  have hm : 8 * f % 8 = 0 := by omega
  have hd8 : 8 * f / 8 = f := by omega
  rw [hm, hd8, if_pos rfl, rVarint_wVarint _ _ hn]
  rfl

theorem decFields_fields : ∀ (fs : List WField) (fuel : Nat) (st : RawRec),
    fs.length ≤ fuel → (∀ fld ∈ fs, fieldOK fld) →
    decFields fuel st ((fs.map writeField).flatten) = .ok (fs.foldl applyField st)
  | [], fuel, st => fun _ _ => by
    show decFields fuel st [] = Except.ok st
    cases fuel with
    | zero => rfl
    | succ fuel => rfl
  | fld :: fs, fuel, st => fun hlen hok => by
    cases fuel with
    | zero => simp at hlen
    | succ fuel =>
      have hflat : (((fld :: fs).map writeField).flatten)
          = writeField fld ++ (fs.map writeField).flatten := by
        simp
      rw [hflat, List.foldl_cons]
      have hlen' : fs.length ≤ fuel := by
        simp only [List.length_cons] at hlen
        omega
      have hok' : ∀ g ∈ fs, fieldOK g := fun g hg => hok g (List.mem_cons_of_mem _ hg)
      cases fld with
      | bytesF f bs =>
        obtain ⟨h1, h2⟩ := hok _ (List.mem_cons_self _ _)
        rw [writeField, decFields_step_bytes fuel st f bs _ h1 h2]
        exact decFields_fields fs fuel _ hlen' hok'
      | varF f n =>
        obtain ⟨h1, h2⟩ := hok _ (List.mem_cons_self _ _)
        rw [writeField, decFields_step_var fuel st f n _ h1 h2]
        exact decFields_fields fs fuel _ hlen' hok'

theorem writeField_ne_nil (fld : WField) : writeField fld ≠ [] := by
  cases fld with
  | bytesF f bs =>
    rw [writeField, wBytesField]
    intro hcon
    rcases List.append_eq_nil.mp hcon with ⟨h1, _⟩
    rcases List.append_eq_nil.mp h1 with ⟨h2, _⟩
    rw [wTag] at h2
    exact wVarint_ne_nil _ h2
  | varF f n =>
    rw [writeField, wVarField]
    intro hcon
    rcases List.append_eq_nil.mp hcon with ⟨h1, _⟩
    rw [wTag] at h1
    exact wVarint_ne_nil _ h1

theorem fields_len_le_flatten : ∀ fs : List WField,
    fs.length ≤ ((fs.map writeField).flatten).length
  | [] => by simp
  | fld :: fs => by
    simp only [List.map_cons, List.flatten_cons, List.length_append,
      List.length_cons]
    have h1 : 0 < (writeField fld).length :=
      List.length_pos.mpr (writeField_ne_nil fld)
    have h2 := fields_len_le_flatten fs
    omega

theorem writeField_len_bytes (f : Nat) (bs : List Nat) (hf : 8 * f + 2 < 2 ^ 64)
    (hb : bs.length < 2 ^ 64) :
    (writeField (.bytesF f bs)).length ≤ 20 + bs.length := by
  rw [writeField, wBytesField, wTag]
  simp only [List.length_append]
  have h1 : (wVarint (8 * f + 2)).length ≤ 10 :=
    wVarint_len_le 10 _ (by omega)
      (by calc 8 * f + 2 < 2 ^ 64 := hf
        _ < 128 ^ 10 := by norm_num)
  have h2 : (wVarint bs.length).length ≤ 10 :=
    wVarint_len_le 10 _ (by omega)
      (by calc bs.length < 2 ^ 64 := hb
        _ < 128 ^ 10 := by norm_num)
  omega

theorem writeField_len_var (f n : Nat) (hf : 8 * f < 2 ^ 64) (hn : n < 2 ^ 64) :
    (writeField (.varF f n)).length ≤ 20 := by
  rw [writeField, wVarField, wTag]
  simp only [List.length_append]
  have h1 : (wVarint (8 * f + 0)).length ≤ 10 :=
    wVarint_len_le 10 _ (by omega)
      (by calc 8 * f + 0 < 2 ^ 64 := by omega
        _ < 128 ^ 10 := by norm_num)
  have h2 : (wVarint n).length ≤ 10 :=
    wVarint_len_le 10 _ (by omega)
      (by calc n < 2 ^ 64 := hn
        _ < 128 ^ 10 := by norm_num)
  omega

theorem condField_len (c : Prop) [inst : Decidable c] (fld : WField) (k : Nat)
    (hk : (writeField fld).length ≤ k) :
    (((if c then [fld] else []).map writeField).flatten).length ≤ k := by
  split
  · simpa using hk
  · simp

theorem recFields_len (e : URL) (tE aE dE : Nat) (sec : List Nat)
    (hsec : sec.length < 2 ^ 64) (hacc : e.Account.length < 2 ^ 64)
    (hiss : e.Issuer.length < 2 ^ 64) (htE : tE < 2 ^ 64) (haE : aE < 2 ^ 64)
    (hdE : dE < 2 ^ 64) (hcnt : e.Counter < 2 ^ 64) :
    (((recFields e tE aE dE sec).map writeField).flatten).length
      ≤ 140 + sec.length + e.Account.length + e.Issuer.length := by
  rw [recFields]
  simp only [List.map_append, List.flatten_append, List.length_append]
  have b1 := condField_len (sec ≠ []) (.bytesF 1 sec) (20 + sec.length)
    (writeField_len_bytes 1 sec (by omega) hsec)
  have b2 := condField_len (e.Account ≠ []) (.bytesF 2 (strToBytes e.Account))
    (20 + e.Account.length)
    (by
      have hlm : (strToBytes e.Account).length = e.Account.length := by
        rw [strToBytes, List.length_map]
      have := writeField_len_bytes 2 (strToBytes e.Account) (by omega)
        (by rw [hlm]; exact hacc)
      rwa [hlm] at this)
  have b3 := condField_len (e.Issuer ≠ []) (.bytesF 3 (strToBytes e.Issuer))
    (20 + e.Issuer.length)
    (by
      have hlm : (strToBytes e.Issuer).length = e.Issuer.length := by
        rw [strToBytes, List.length_map]
      have := writeField_len_bytes 3 (strToBytes e.Issuer) (by omega)
        (by rw [hlm]; exact hiss)
      rwa [hlm] at this)
  have b4 := condField_len (aE ≠ 0) (.varF 4 aE) 20
    (writeField_len_var 4 aE (by omega) haE)
  have b5 := condField_len (dE ≠ 0) (.varF 5 dE) 20
    (writeField_len_var 5 dE (by omega) hdE)
  have b6 := condField_len (tE ≠ 0) (.varF 6 tE) 20
    (writeField_len_var 6 tE (by omega) htE)
  have b7 := condField_len (e.Counter ≠ 0) (.varF 7 e.Counter) 20
    (writeField_len_var 7 e.Counter (by omega) hcnt)
  omega

theorem wBytesField_lt256 (f : Nat) (bs : List Nat) (hb : ∀ b ∈ bs, b < 256) :
    ∀ x ∈ wBytesField f bs, x < 256 := by
  intro x hx
  rw [wBytesField, wTag] at hx
  rcases List.mem_append.mp hx with hx | hx
  · rcases List.mem_append.mp hx with hx | hx
    · exact wVarint_lt256 _ x hx
    · exact wVarint_lt256 _ x hx
  · exact hb x hx

theorem wVarField_lt256 (f n : Nat) : ∀ x ∈ wVarField f n, x < 256 := by
  intro x hx
  rw [wVarField, wTag] at hx
  rcases List.mem_append.mp hx with hx | hx
  · exact wVarint_lt256 _ x hx
  · exact wVarint_lt256 _ x hx

theorem recFields_mem (e : URL) (tE aE dE : Nat) (sec : List Nat) (fld : WField)
    (h : fld ∈ recFields e tE aE dE sec) :
    fld = .bytesF 1 sec ∨ fld = .bytesF 2 (strToBytes e.Account)
    ∨ fld = .bytesF 3 (strToBytes e.Issuer) ∨ fld = .varF 4 aE
    ∨ fld = .varF 5 dE ∨ fld = .varF 6 tE ∨ fld = .varF 7 e.Counter := by
  rw [recFields] at h
  simp only [List.mem_append, mem_ite_nil] at h
  tauto

theorem record_body_lt256 (e : URL) (tE aE dE : Nat) (sec : List Nat)
    (hsec : ∀ b ∈ sec, b < 256) (hacc : ∀ c ∈ e.Account, c.toNat < 256)
    (hiss : ∀ c ∈ e.Issuer, c.toNat < 256) :
    ∀ x ∈ ((recFields e tE aE dE sec).map writeField).flatten, x < 256 := by
  intro x hx
  rw [List.mem_flatten] at hx
  obtain ⟨l, hl, hxl⟩ := hx
  rw [List.mem_map] at hl
  obtain ⟨fld, hfld, rfl⟩ := hl
  rcases recFields_mem e tE aE dE sec fld hfld with rfl | rfl | rfl | rfl | rfl | rfl | rfl
  · exact wBytesField_lt256 _ _ hsec x hxl
  · exact wBytesField_lt256 _ _ (strToBytes_lt256 _ hacc) x hxl
  · exact wBytesField_lt256 _ _ (strToBytes_lt256 _ hiss) x hxl
  · exact wVarField_lt256 _ _ x hxl
  · exact wVarField_lt256 _ _ x hxl
  · exact wVarField_lt256 _ _ x hxl
  · exact wVarField_lt256 _ _ x hxl

theorem foldl_recFields (e : URL) (tE aE dE : Nat) (sec : List Nat) :
    (recFields e tE aE dE sec).foldl applyField {}
      = { secret := sec, name := strToBytes e.Account,
          issuer := strToBytes e.Issuer, alg := aE, dig := dE, typ := tE,
          counter := e.Counter } := by
  rw [recFields]
  by_cases h1 : sec = [] <;> by_cases h2 : e.Account = [] <;>
    by_cases h3 : e.Issuer = [] <;> by_cases h4 : aE = 0 <;>
    by_cases h5 : dE = 0 <;> by_cases h6 : tE = 0 <;>
    by_cases h7 : e.Counter = 0 <;>
    simp [h1, h2, h3, h4, h5, h6, h7, applyField, List.foldl_append, strToBytes]

theorem record_chain (e : URL) (h : EntityOK e) :
    ∃ body rr, encodeRecord e = .ok body
      ∧ (∀ b ∈ body, b < 256)
      ∧ body.length < 2 ^ 64
      ∧ decodeRecord body = .ok rr
      ∧ rawToURL rr = { e with Period := 30 } := by
  obtain ⟨hT, hA, hD, ⟨sec, hsec, hb32, hsec256, hsecLen⟩, hCnt, hAccLen, hAcc256,
    hIssLen, hIss256⟩ := h
  have h64 : (2 : Nat) ^ 64 = 18446744073709551616 := by norm_num
  have h60 : (2 : Nat) ^ 60 = 1152921504606846976 := by norm_num
  obtain ⟨tE, htE, htN, htEb⟩ :
      ∃ tE, typeEnum e.«Type» = some tE ∧ typName tE = e.«Type» ∧ tE < 3 := by
    rcases hT with h | h | h <;> rw [h]
    · exact ⟨0, by decide, by decide, by decide⟩
    · exact ⟨1, by decide, by decide, by decide⟩
    · exact ⟨2, by decide, by decide, by decide⟩
  obtain ⟨aE, haE, haN, haEb⟩ :
      ∃ aE, algEnum e.Algorithm = some aE ∧ algName aE = e.Algorithm ∧ aE < 5 := by
    rcases hA with h | h | h | h <;> rw [h]
    · exact ⟨1, by decide, by decide, by decide⟩
    · exact ⟨2, by decide, by decide, by decide⟩
    · exact ⟨3, by decide, by decide, by decide⟩
    · exact ⟨4, by decide, by decide, by decide⟩
  obtain ⟨dE, hdE, hdN, hdEb⟩ :
      ∃ dE, digitsEnum e.Digits = some dE ∧ digCount dE = e.Digits ∧ dE < 3 := by
    rcases hD with h | h <;> rw [h]
    · exact ⟨1, by decide, by decide, by decide⟩
    · exact ⟨2, by decide, by decide, by decide⟩
  refine ⟨((recFields e tE aE dE sec).map writeField).flatten,
    (recFields e tE aE dE sec).foldl applyField {}, ?_, ?_, ?_, ?_, ?_⟩
  · rw [encodeRecord, htE, haE, hdE, hsec]
  · exact record_body_lt256 e tE aE dE sec hsec256 hAcc256 hIss256
  · have := recFields_len e tE aE dE sec (by omega) (by omega) (by omega)
      (by omega) (by omega) (by omega) hCnt
    omega
  · rw [decodeRecord]
    apply decFields_fields
    · have h1 := fields_len_le_flatten (recFields e tE aE dE sec)
      omega
    · intro fld hfld
      rcases recFields_mem e tE aE dE sec fld hfld
        with rfl | rfl | rfl | rfl | rfl | rfl | rfl
      · exact ⟨by omega, by omega⟩
      · refine ⟨by omega, ?_⟩
        rw [strToBytes, List.length_map]
        omega
      · refine ⟨by omega, ?_⟩
        rw [strToBytes, List.length_map]
        omega
      · exact ⟨by omega, by omega⟩
      · exact ⟨by omega, by omega⟩
      · exact ⟨by omega, by omega⟩
      · exact ⟨by omega, by omega⟩
  · rw [foldl_recFields]
    show URL.mk (typName tE) (bytesToStr (strToBytes e.Issuer))
      (bytesToStr (strToBytes e.Account)) (b32enc sec) (algName aE)
      (digCount dE) 30 e.Counter = { e with Period := 30 }
    rw [htN, haN, hdN, hb32, bytesToStr_strToBytes, bytesToStr_strToBytes]

theorem decRecords_pos (fuel : Nat) (l : List Nat) (hl : l ≠ [])
    (tag : Nat) (rest : List Nat) (htag : rVarint l = some (tag, rest)) :
    decRecords (fuel + 1) l
      = if tag % 8 = 2 then
          match rVarint rest with
          | none => Except.error Err.MalformedWireFormat
          | some (len, rest') =>
            if len ≤ rest'.length then
              if tag / 8 = 1 then
                match decodeRecord (rest'.take len),
                    decRecords fuel (rest'.drop len) with
                | .ok r, .ok rs => .ok (r :: rs)
                | .error er, _ => .error er
                | _, .error er => .error er
              else decRecords fuel (rest'.drop len)
            else .error Err.MalformedWireFormat
        else if tag % 8 = 0 then
          match rVarint rest with
          | none => Except.error Err.MalformedWireFormat
          | some (_, rest') => decRecords fuel rest'
        else Except.error Err.MalformedWireFormat := by
  cases l with
  | nil => exact absurd rfl hl
  | cons b bs => rw [decRecords, htag]

theorem decRecords_step (fuel : Nat) (body T : List Nat) (rr : RawRec)
    (rs : List RawRec) (hlen : body.length < 2 ^ 64)
    (hdec : decodeRecord body = .ok rr) (hT : decRecords fuel T = .ok rs) :
    decRecords (fuel + 1) (wBytesField 1 body ++ T) = .ok (rr :: rs) := by
  have hform : wBytesField 1 body ++ T
      = wVarint 10 ++ (wVarint body.length ++ (body ++ T)) := by
    rw [wBytesField, wTag]
    simp [List.append_assoc]
  have hne : wBytesField 1 body ++ T ≠ [] := by
    rw [hform]
    intro hcon
    rcases List.append_eq_nil.mp hcon with ⟨h1, _⟩
    exact wVarint_ne_nil _ h1
  rw [decRecords_pos fuel _ hne 10 (wVarint body.length ++ (body ++ T))
    (by rw [hform]; exact rVarint_wVarint _ _ (by norm_num))]
  rw [if_pos (by decide), rVarint_wVarint _ _ hlen]
  show (if body.length ≤ (body ++ T).length then
      if 10 / 8 = 1 then
        match decodeRecord ((body ++ T).take body.length),
            decRecords fuel ((body ++ T).drop body.length) with
        | .ok r, .ok rs' => Except.ok (r :: rs')
        | .error er, _ => Except.error er
        | _, .error er => Except.error er
      else decRecords fuel ((body ++ T).drop body.length)
    else Except.error Err.MalformedWireFormat) = Except.ok (rr :: rs)
  rw [if_pos (by simp only [List.length_append]; omega), if_pos (by decide),
    List.take_left, List.drop_left, hdec, hT]

theorem migration_chain : ∀ es : List URL, (∀ e ∈ es, EntityOK e) →
    ∃ bytes, encodeMigration es = .ok bytes
      ∧ (∀ b ∈ bytes, b < 256)
      ∧ es.length ≤ bytes.length
      ∧ ∀ fuel, es.length ≤ fuel →
          ∃ rrs, decRecords fuel bytes = .ok rrs
            ∧ rrs.map rawToURL = es.map (fun e => { e with Period := 30 })
  | [], _ => by
    refine ⟨[], rfl, by simp, by simp, ?_⟩
    intro fuel _
    refine ⟨[], ?_, by simp⟩
    cases fuel with
    | zero => rfl
    | succ fuel => rfl
  | e :: es, h => by
    obtain ⟨body, rr, hrec, hb256, hblen, hdecR, hraw⟩ :=
      record_chain e (h e (List.mem_cons_self _ _))
    obtain ⟨bytes, henc, hlt, hcnt, hdec⟩ :=
      migration_chain es (fun g hg => h g (List.mem_cons_of_mem _ hg))
    refine ⟨wBytesField 1 body ++ bytes, ?_, ?_, ?_, ?_⟩
    · rw [encodeMigration, hrec, henc]
    · intro b hb
      rcases List.mem_append.mp hb with hb | hb
      · exact wBytesField_lt256 _ _ hb256 b hb
      · exact hlt b hb
    · have hpos : 0 < (wBytesField 1 body).length := by
        refine List.length_pos.mpr ?_
        rw [wBytesField, wTag]
        intro hcon
        rcases List.append_eq_nil.mp hcon with ⟨hc1, _⟩
        rcases List.append_eq_nil.mp hc1 with ⟨hc2, _⟩
        exact wVarint_ne_nil _ hc2
      simp only [List.length_append, List.length_cons]
      omega
    · intro fuel hfuel
      cases fuel with
      | zero => simp at hfuel
      | succ fuel =>
        obtain ⟨rrs, hrrs, hmap⟩ := hdec fuel
          (by simp only [List.length_cons] at hfuel; omega)
        refine ⟨rr :: rrs, ?_, ?_⟩
        · exact decRecords_step fuel body bytes rr rrs hblen hdecR hrrs
        · simp only [List.map_cons, hmap, hraw]

theorem ParseMigrationURL_data (X : Str) (hamp : '&' ∉ X) :
    ParseMigrationURL (str "otpauth-migration://offline?data=" ++ X)
      = match pctDecode X with
        | .error er => .error er
        | .ok dec =>
          match b64dec (stripB64Pad dec) with
          | none => .error Err.MalformedWireFormat
          | some bytes => decodeMigration bytes := by
  have hsplit : str "otpauth-migration://offline?data=" ++ X
      = str "otpauth-migration://offline?" ++ (str "data=" ++ X) := rfl
  rw [ParseMigrationURL, hsplit]
  have h1 : (str "otpauth-migration://offline?").isPrefixOf
      (str "otpauth-migration://offline?" ++ (str "data=" ++ X)) = true := by
    rw [List.isPrefixOf_iff_prefix]
    exact ⟨_, rfl⟩
  rw [h1, if_pos rfl]
  have h2 : (str "otpauth-migration://offline?" ++ (str "data=" ++ X)).drop 28
      = str "data=" ++ X := rfl
  have hamp5 : '&' ∉ str "data=" ++ X := by
    intro hm
    rcases List.mem_append.mp hm with hm | hm
    · exact absurd hm (by decide)
    · exact hamp hm
  rw [h2, splitAmp_no_amp hamp5]
  have hdata : str "data=" ++ X = str "data" ++ '=' :: X := rfl
  rw [hdata]
  show (match splitFirst '=' (str "data" ++ '=' :: X) with
    | some (k, v) =>
      if k = str "data" then
        match pctDecode v with
        | .error er => Except.error er
        | .ok dec =>
          match b64dec (stripB64Pad dec) with
          | none => Except.error Err.MalformedWireFormat
          | some bytes => decodeMigration bytes
      else Except.error Err.InvalidParameter
    | none => Except.error Err.InvalidParameter) = _
  rw [splitFirst_append X (by decide)]
  show (if str "data" = str "data" then
      match pctDecode X with
      | .error er => Except.error er
      | .ok dec =>
        match b64dec (stripB64Pad dec) with
        | none => Except.error Err.MalformedWireFormat
        | some bytes => decodeMigration bytes
    else Except.error Err.InvalidParameter) = _
  rw [if_pos rfl]

/-- C2 (amended): for entity sequences in which every entity carries the
exact spellings the migration decoder itself produces — Type empty,
"hotp" or "totp"; Algorithm one of "SHA1", "SHA256", "SHA512", "MD5";
Digits 6 or 8; the secret the canonical unpadded-uppercase base32 text
of its byte decoding; counter and lengths within the 64-bit wire
bounds; account and issuer byte-sized — decoding the encoded migration
URL restores the sequence element by element, in order, with only
Period replaced by 30. Entities with Digits 0 or an empty Algorithm
come back with Digits 6 and algorithm SHA1, so the original claim's
tolerance of Digits 0 and empty Algorithm is refuted separately. -/
theorem migration_roundtrip (es : List URL) (h : ∀ e ∈ es, EntityOK e) :
    (MigrationURL es).bind ParseMigrationURL
      = .ok (es.map fun e => { e with Period := 30 }) := by
  obtain ⟨bytes, henc, hlt, hcnt, hdec⟩ := migration_chain es h
  obtain ⟨rrs, hrr, hmap⟩ := hdec (bytes.length + 1) (by omega)
  rw [MigrationURL, henc]
  show ParseMigrationURL (str "otpauth-migration://offline?data="
    ++ pctEncode (b64enc bytes)) = _
  rw [ParseMigrationURL_data _ (pctEncode_no_amp _), pctDecode_pctEncode]
  show (match b64dec (stripB64Pad (b64enc bytes)) with
    | none => Except.error Err.MalformedWireFormat
    | some bytes' => decodeMigration bytes') = _
  rw [stripB64Pad_enc, b64dec_b64enc bytes hlt]
  show decodeMigration bytes = _
  rw [decodeMigration, hrr]
  show Except.ok (rrs.map rawToURL) = _
  rw [hmap]

set_option maxRecDepth 10000 in
/-- C2 counterexample. An entity with Type "totp", Digits 0 and empty
Algorithm is legal input per the original claim, yet it round-trips to
an entity with Digits 6 and algorithm SHA1, which differs from the
input after Period defaulting alone. -/
theorem migration_default_counterexample :
    (MigrationURL [{ «Type» := str "totp" }]).bind ParseMigrationURL
        = .ok [{ «Type» := str "totp", Algorithm := str "SHA1", Digits := 6,
                 Period := 30 }]
      ∧ ({ «Type» := str "totp", Algorithm := str "SHA1", Digits := 6,
           Period := 30 } : URL)
          ≠ { «Type» := str "totp", Period := 30 } := by
  decide

/-- Witness for C2 (amended) at a concrete totp entity with issuer,
account and a canonical base32 secret. -/
theorem migration_roundtrip_witness :
    (MigrationURL
        [{ «Type» := str "totp", Algorithm := str "SHA1",
           Account := str "test 1", Issuer := str "minsc",
           RawSecret := str "MEEPMEEP", Digits := 6, Period := 30 }]).bind
        ParseMigrationURL
      = .ok
        (([{ «Type» := str "totp", Algorithm := str "SHA1",
             Account := str "test 1", Issuer := str "minsc",
             RawSecret := str "MEEPMEEP", Digits := 6, Period := 30 }]
            : List URL).map
          fun e => { e with Period := 30 }) := by
  refine migration_roundtrip _ ?_
  intro g hg
  rcases List.mem_singleton.mp hg with rfl
  exact ⟨by decide, by decide, by decide,
    ⟨_, rfl, by decide, by decide, by decide⟩,
    by decide, by decide, by decide, by decide, by decide⟩

end OtpAuth
